import Mathlib

/-!
Verification of the pixeltable `docs3` documentation-conversion scripts.

This file gives a shallow embedding, over `List Char`, of the text
transformations performed by the Python scripts in `docs3/`:

  * `docs3/scripts/jupyter_to_docusaurus.py` (notebook → MDX converter)
  * `docs3/scripts/clean_mdx.py`             (brace escaping outside code)
  * `docs3/scripts/fix_mdx.py`               (angle-bracket escaping)
  * `docs3/fix_mdx_issues.py`                (code-block save/restore)
  * `docs3/scripts/add_frontmatter.py`       (description truncation)
  * `docs3/docs/jupyter/convert_md_to_mdx.py` (batch driver)

Python strings are modelled as `List Char` (named `Text` below); regular
expression substitutions are modelled as recursive character scans that
follow the Python `re` semantics (leftmost match, greediness/backtracking
resolved by hand for each concrete pattern, lookarounds reading the
subject string of the pass in which they run).
-/

set_option maxHeartbeats 1000000

/-- Text is the model of a Python `str`: a list of characters. -/
abbrev Text := List Char

/-- Convert a Lean string literal to `Text`. -/
def tx (s : String) : Text := s.data

namespace PyStr

/-- The character class of Python's `\s` / `str.strip()` default
(ASCII whitespace: space, tab, newline, carriage return, vertical tab,
form feed). -/
def isWs (c : Char) : Bool :=
  c = ' ' || c = '\t' || c = '\n' || c = '\r' || c = '\x0b' || c = '\x0c'

/-- Python `str.strip()`: drop whitespace from both ends. -/
def strip (l : Text) : Text :=
  ((l.dropWhile isWs).reverse.dropWhile isWs).reverse

/-- One step of Python `str.title()`: a letter is uppercased when the
previous character is not a letter, lowercased otherwise. -/
def titleChar (prevAlpha : Bool) (c : Char) : Char :=
  if c.isAlpha then (if prevAlpha then c.toLower else c.toUpper) else c

/-- Python `str.title()` over a character list. -/
def titleAux : Bool → Text → Text
  | _, [] => []
  | p, c :: cs => titleChar p c :: titleAux c.isAlpha cs

/-- Python `str.title()`. -/
def title (l : Text) : Text := titleAux false l

/-- Python `str.split('\n')` (always returns at least one piece). -/
def splitNl : Text → List Text
  | [] => [[]]
  | c :: cs =>
    if c = '\n' then [] :: splitNl cs
    else
      match splitNl cs with
      | [] => [[c]]
      | p :: ps => (c :: p) :: ps

/-- Python `'\n'.join(...)`. -/
def joinNl : List Text → Text
  | [] => []
  | [l] => l
  | l :: ls => l ++ '\n' :: joinNl ls

/-- `startsB p l` holds when `p` is a prefix of `l` (Python
`str.startswith`). -/
def startsB : Text → Text → Bool
  | [], _ => true
  | _ :: _, [] => false
  | p :: ps, c :: cs => p = c && startsB ps cs

/-- `occB p l` holds when `p` occurs as a contiguous substring of `l`
(Python `in` on strings). -/
def occB (p : Text) : Text → Bool
  | [] => startsB p []
  | l@(_ :: cs) => startsB p l || occB p cs

/-- Search `f` at `k, k-1, ..., 1`, returning the first hit (used to model
regex backtracking that prefers the longest quantifier match). -/
def descFind (f : Nat → Option α) : Nat → Option α
  | 0 => none
  | k + 1 =>
    match f (k + 1) with
    | some r => some r
    | none => descFind f k

end PyStr

namespace CleanMdx

open PyStr

/-!
Embedding of `escape_braces_outside_code` from
`docs3/scripts/clean_mdx.py` (lines 54-85).  The Python function splits
the text on newlines, toggles an `in_code_block` flag on lines whose
stripped content starts with three backticks (such lines, and lines
inside a code block, are appended unmodified), and otherwise walks the
line character by character: a backtick toggles `in_inline_code` (a
variable declared OUTSIDE the line loop, so its state persists from one
line to the next), and outside inline code `{` and `}` are replaced by
`\{` and `\}`.
-/

/-- The inner character loop of `escape_braces_outside_code`
(clean_mdx.py lines 68-80): backticks toggle the inline-code flag and
braces outside inline code get a backslash prefix. -/
def escCharsAux : Bool → Text → Text
  | _, [] => []
  | inline, c :: cs =>
    if c = '\x60' then c :: escCharsAux (!inline) cs
    else if !inline && c = '\x7b' then '\\' :: '\x7b' :: escCharsAux inline cs
    else if !inline && c = '\x7d' then '\\' :: '\x7d' :: escCharsAux inline cs
    else c :: escCharsAux inline cs

/-- Whether a line contains an odd number of backticks (the inline-code
flag is toggled once per backtick, so this is the net effect of
processing the line). -/
def oddTicks (l : Text) : Bool := (l.countP (fun c => c = '\x60')) % 2 = 1

/-- `line.strip().startswith('```')` — the fenced-block marker test of
clean_mdx.py line 61. -/
def isMarkerL (l : Text) : Bool := startsB (tx "\x60\x60\x60") (l.dropWhile isWs)

/-- The line loop of `escape_braces_outside_code` (clean_mdx.py lines
60-81): first flag is `in_code_block`, second is `in_inline_code`. -/
def escLinesAux : Bool → Bool → List Text → List Text
  | _, _, [] => []
  | inCode, inline, l :: ls =>
    if isMarkerL l then l :: escLinesAux (!inCode) inline ls
    else if inCode then l :: escLinesAux inCode inline ls
    else escCharsAux inline l :: escLinesAux inCode (xor inline (oddTicks l)) ls

/-- `escape_braces_outside_code` from clean_mdx.py lines 54-85. -/
def escape_braces_outside_code (t : Text) : Text :=
  joinNl (escLinesAux false false (splitNl t))

/-- The `in_code_block` state before each line (state before line `i` is
element `i`); used to say which lines the function treats as fenced. -/
def fenceStates : Bool → List Text → List Bool
  | _, [] => []
  | b, l :: ls => b :: fenceStates (if isMarkerL l then !b else b) ls

/-- `proseB b ls i` holds when line `i` of `ls` is processed as prose
(it exists, is not a fence marker, and the fenced flag — starting from
`b` — is off when the line is reached). -/
def proseB (b : Bool) (ls : List Text) (i : Nat) : Bool :=
  match (ls.drop i).head?, ((fenceStates b ls).drop i).head? with
  | some l, some st => !isMarkerL l && !st
  | _, _ => false

/-- A line of the split text is prose for `escape_braces_outside_code`
(which starts with the fenced flag off). -/
def proseAt (ls : List Text) (i : Nat) : Prop := proseB false ls i = true

instance (ls : List Text) (i : Nat) : Decidable (proseAt ls i) := by
  unfold proseAt; infer_instance

/-- Specification-side safety check for an escaped prose line: scanning
the line with a backtick-parity flag, every brace encountered outside
inline code must be immediately preceded by a backslash. -/
def braceSafeAux : Bool → Option Char → Text → Bool
  | _, _, [] => true
  | inline, prev, c :: cs =>
    if c = '\x60' then braceSafeAux (!inline) (some c) cs
    else if !inline && (c = '\x7b' || c = '\x7d') then
      decide (prev = some '\\') && braceSafeAux inline (some c) cs
    else braceSafeAux inline (some c) cs

/-- A line is brace-safe when every brace outside inline code carries a
backslash prefix. -/
def braceSafe (l : Text) : Bool := braceSafeAux false none l

/-- Specification-side double-escaping character pass: like
`escCharsAux` but prefixing each prose brace with two backslashes
(what two applications of the sanitizer produce). -/
def escTwiceAux : Bool → Text → Text
  | _, [] => []
  | inline, c :: cs =>
    if c = '\x60' then c :: escTwiceAux (!inline) cs
    else if !inline && c = '\x7b' then
      '\\' :: '\\' :: '\x7b' :: escTwiceAux inline cs
    else if !inline && c = '\x7d' then
      '\\' :: '\\' :: '\x7d' :: escTwiceAux inline cs
    else c :: escTwiceAux inline cs

end CleanMdx

namespace Jup

open PyStr

/-!
Embedding of `docs3/scripts/jupyter_to_docusaurus.py`
(`JupyterToDocusaurusAlchemist`).  A parsed notebook is an ordered cell
list plus a metadata mapping; cell and output payloads are ordered
fragment lists joined with `''.join`.
-/

/-- Notebook metadata as read by the converter.  Only `description` is
ever consulted by the Python code; a `title` field is included in the
model so that theorems can state that title extraction ignores it. -/
structure Metadata where
  titleMeta : Option Text := none
  description : Option Text := none

/-- The `data` mapping of an `execute_result`/`display_data` output;
the converter only tests/reads the keys `text/plain`, `image/png`,
`text/html`. -/
structure OutData where
  textPlain : Option (List Text) := none
  imagePng : Option Text := none
  textHtml : Option (List Text) := none

/-- One entry of a code cell's `outputs` list. -/
structure Output where
  output_type : String
  text : List Text := []
  data : OutData := {}
  traceback : List Text := []

/-- A notebook cell: type tag, source fragments and (for code cells)
outputs. -/
structure Cell where
  cell_type : String
  source : List Text := []
  outputs : List Output := []

/-- A parsed notebook document. -/
structure Notebook where
  cells : List Cell := []
  metadata : Metadata := {}

/-- The admonition block emitted for an `image/png` payload
(jupyter_to_docusaurus.py line 186). -/
def imagePlaceholder : Text :=
  tx ":::note Output\nImage output (PNG data) - please save and reference manually\n:::\n"

/-- Rendering of a single output (the loop body of `_transmute_outputs`,
lines 169-195): streams and recognized MIME payloads become fenced
blocks, an `image/png` payload becomes only the placeholder admonition,
errors become a commented fenced block. -/
def outContrib (o : Output) : Text :=
  if o.output_type = "stream" then
    tx "\x60\x60\x60bash\n" ++ o.text.flatten ++ tx "\n\x60\x60\x60\n"
  else if o.output_type = "execute_result" || o.output_type = "display_data" then
    (match o.data.textPlain with
     | some t => tx "\x60\x60\x60\n" ++ t.flatten ++ tx "\n\x60\x60\x60\n"
     | none => []) ++
    (if o.data.imagePng.isSome then imagePlaceholder else []) ++
    (match o.data.textHtml with
     | some h => tx "\x60\x60\x60html\n" ++ h.flatten ++ tx "\n\x60\x60\x60\n"
     | none => [])
  else if o.output_type = "error" then
    tx "\x60\x60\x60python\n# Error:\n" ++ joinNl o.traceback ++ tx "\n\x60\x60\x60\n"
  else []

/-- `_transmute_outputs` (jupyter_to_docusaurus.py lines 165-197). -/
def transmute_outputs : List Output → Text
  | [] => []
  | o :: os => outContrib o ++ transmute_outputs os

/-- `p` is a suffix of `l` (used for regex lookaheads that check how the
run before the first `>` ends). -/
def endsB (p l : Text) : Bool := PyStr.startsB p.reverse l.reverse

/-- The tag alternation of jupyter_to_docusaurus.py line 215, in the
regex's preference order. -/
def tagAlt1 : List Text := [tx "ul", tx "ol", tx "li", tx "div", tx "span", tx "p"]

/-- The tag alternation of line 218. -/
def tagAlt2 : List Text := [tx "br", tx "hr", tx "img"]

/-- First alternative that is a prefix of `cs` (regex alternation tries
left to right; the listed tags start with pairwise distinct letters, so
at most one can match). -/
def findTag (alts : List Text) (cs : Text) : Option Text :=
  alts.find? (fun t => startsB t cs)

/-- Lookahead `[^>]*/>` from a position: succeeds exactly when a `>`
exists ahead and the character right before the first `>` is `/`. -/
def lookSelfClose (rest : Text) : Bool :=
  let pre := rest.takeWhile (fun c => c ≠ '>')
  decide (pre.length < rest.length) &&
    (match pre.getLast? with
     | some '/' => true
     | _ => false)

/-- Lookahead `[^>]*</tag>`: succeeds exactly when a `>` exists ahead and
the run before the first `>` ends with `</tag`. -/
def lookCloseTag (tag rest : Text) : Bool :=
  let pre := rest.takeWhile (fun c => c ≠ '>')
  decide (pre.length < rest.length) && endsB ('<' :: '/' :: tag) pre

/-- `re.sub(r'<(ul|ol|li|div|span|p)(?![^>]*/>)(?![^>]*</\1>)', '', ...)`
(jupyter_to_docusaurus.py line 215): delete the `<tag` text when neither
negative lookahead fires. -/
def fixTags1 : Text → Text
  | [] => []
  | c :: cs =>
    if c = '<' then
      match findTag tagAlt1 cs with
      | some tag =>
        let rest := cs.drop tag.length
        if lookSelfClose rest || lookCloseTag tag rest then c :: fixTags1 cs
        else fixTags1 rest
      | none => c :: fixTags1 cs
    else c :: fixTags1 cs
termination_by l => l.length
decreasing_by
  all_goals simp [List.length_drop]
  all_goals omega

/-- `re.sub(r'<(br|hr|img)([^>]*)(?<!/)>', r'<\1\2 />', ...)` (line 218):
rewrite a matched self-closing-style tag to have `' />'`. -/
def fixTags2 : Text → Text
  | [] => []
  | c :: cs =>
    if c = '<' then
      match findTag tagAlt2 cs with
      | some tag =>
        let rest := cs.drop tag.length
        let run := rest.takeWhile (fun d => d ≠ '>')
        if decide (run.length < rest.length) &&
            (match run.getLast? with
             | some '/' => false
             | _ => true) then
          '<' :: (tag ++ run ++ tx " />") ++ fixTags2 (rest.drop (run.length + 1))
        else c :: fixTags2 cs
      | none => c :: fixTags2 cs
    else c :: fixTags2 cs
termination_by l => l.length
decreasing_by
  all_goals simp [List.length_drop]
  all_goals omega

/-- One backtracking attempt of the pattern
`<([^>]+)\s+style="[^"]*"([^>]*)>` (line 221) with the first group fixed
to length `k`; returns the replacement groups and the consumed length. -/
def styleTry (cs : Text) (k : Nat) : Option (Text × Nat) :=
  let g1 := cs.take k
  let r1 := cs.drop k
  let ws := r1.takeWhile isWs
  if ws.isEmpty then none
  else
    let r2 := r1.drop ws.length
    if startsB (tx "style=\"") r2 then
      let r3 := r2.drop 7
      let q := r3.takeWhile (fun d => d ≠ '"')
      if decide (q.length < r3.length) then
        let r4 := r3.drop (q.length + 1)
        let g2 := r4.takeWhile (fun d => d ≠ '>')
        if decide (g2.length < r4.length) then
          some (g1 ++ g2, k + ws.length + 7 + q.length + 1 + g2.length + 1)
        else none
      else none
    else none

/-- `re.sub(r'<([^>]+)\s+style="[^"]*"([^>]*)>', r'<\1\2>', ...)`
(line 221): drop a `style="…"` attribute; the first group is greedy, so
the longest workable `[^>]+` run is preferred. -/
def fixTags3 : Text → Text
  | [] => []
  | c :: cs =>
    if c = '<' then
      match descFind (styleTry cs) ((cs.takeWhile (fun d => d ≠ '>')).length) with
      | some (g, consumed) => '<' :: g ++ '>' :: fixTags3 (cs.drop consumed)
      | none => c :: fixTags3 cs
    else c :: fixTags3 cs
termination_by l => l.length
decreasing_by
  all_goals simp [List.length_drop]
  all_goals omega

/-- `_fix_html_tags` (jupyter_to_docusaurus.py lines 212-223). -/
def fix_html_tags (t : Text) : Text := fixTags3 (fixTags2 (fixTags1 t))

/-- `re.sub(r'<img src="([^"]+)"([^>]*?)>', r'![Image](\1)', ...)`
(jupyter_to_docusaurus.py line 205): markdown-ify an HTML image tag. -/
def imgSub : Text → Text
  | [] => []
  | c :: cs =>
    if c = '<' && startsB (tx "img src=\"") cs then
      let r1 := cs.drop 9
      let g1 := r1.takeWhile (fun d => d ≠ '"')
      if g1.isEmpty then c :: imgSub cs
      else if decide (g1.length < r1.length) then
        let r2 := r1.drop (g1.length + 1)
        let g2 := r2.takeWhile (fun d => d ≠ '>')
        if decide (g2.length < r2.length) then
          tx "![Image](" ++ g1 ++ ')' :: imgSub (r2.drop (g2.length + 1))
        else c :: imgSub cs
      else c :: imgSub cs
    else c :: imgSub cs
termination_by l => l.length
decreasing_by
  all_goals simp [List.length_drop]
  all_goals omega

/-- The scheme part of `https?://` tried greedily (prefers the `s`);
returns its length. -/
def schemeSplit (cs : Text) : Option Nat :=
  if startsB (tx "https://") cs then some 8
  else if startsB (tx "http://") cs then some 7
  else none

/-- `re.sub(r'<(https?://[^>\s]+)>', r'[\1](\1)', ...)`
(jupyter_to_docusaurus.py line 228): angle-bracketed URLs become
markdown links. -/
def urlAngleSub : Text → Text
  | [] => []
  | c :: cs =>
    if c = '<' then
      match schemeSplit cs with
      | some n =>
        let run := (cs.drop n).takeWhile (fun d => !(d = '>' || isWs d))
        if run.isEmpty then c :: urlAngleSub cs
        else if ((cs.drop n).drop run.length).head? = some '>' then
          let url := cs.take n ++ run
          '[' :: url ++ ']' :: '(' :: url ++ ')' ::
            urlAngleSub ((cs.drop n).drop (run.length + 1))
        else c :: urlAngleSub cs
      | none => c :: urlAngleSub cs
    else c :: urlAngleSub cs
termination_by l => l.length
decreasing_by
  all_goals simp [List.length_drop]
  all_goals omega

/-- The lookbehind test `[a-zA-Z]` on the previous character of the
subject (no previous character at the start of the string). -/
def prevAlpha : Option Char → Bool
  | some p => p.isAlpha
  | none => false

/-- The lookahead test `[a-zA-Z]` on the next character of the
subject. -/
def nextAlpha (l : Text) : Bool :=
  match l.head? with
  | some d => d.isAlpha
  | none => false

/-- `re.sub(r'<(?![a-zA-Z/!])', r'&lt;', ...)` (line 231): a `<` not
followed by a letter, `/` or `!` becomes `&lt;`. -/
def escLt : Text → Text
  | [] => []
  | c :: cs =>
    if c = '<' then
      (match cs.head? with
       | some d => if d.isAlpha || d = '/' || d = '!' then ['<'] else tx "&lt;"
       | none => tx "&lt;") ++ escLt cs
    else c :: escLt cs

/-- `re.sub(r'(?<![a-zA-Z])>', r'&gt;', ...)` (line 232): a `>` not
preceded by a letter becomes `&gt;`; the lookbehind reads the subject
string of this pass, tracked here as the previous character. -/
def escGtJAux : Option Char → Text → Text
  | _, [] => []
  | prev, c :: cs =>
    if c = '>' then
      (if prevAlpha prev then ['>'] else tx "&gt;") ++ escGtJAux (some '>') cs
    else c :: escGtJAux (some c) cs

/-- The `>` pass of `_fix_mdx_syntax` applied to a whole text. -/
def escGtJ (t : Text) : Text := escGtJAux none t

/-- The character class `[^\s<>"\[\]]` of the bare-URL pattern. -/
def urlChar (c : Char) : Bool :=
  !(isWs c || c = '<' || c = '>' || c = '"' || c = '[' || c = ']')

/-- `re.sub(r'(?<!\[)(?<!\()https?://[^\s<>"\[\]]+', lambda m: ..., ...)`
(line 235): linkify bare URLs not already preceded by `[` or `(`. -/
def bareUrlAux : Option Char → Text → Text
  | _, [] => []
  | prev, c :: cs =>
    if startsB (tx "https://") (c :: cs) then
      if prev = some '[' || prev = some '(' then c :: bareUrlAux (some c) cs
      else
        let run := ((c :: cs).drop 8).takeWhile urlChar
        if run.isEmpty then c :: bareUrlAux (some c) cs
        else
          let url := (c :: cs).take 8 ++ run
          '[' :: url ++ ']' :: '(' :: url ++ ')' ::
            bareUrlAux run.getLast? (((c :: cs).drop 8).drop run.length)
    else if startsB (tx "http://") (c :: cs) then
      if prev = some '[' || prev = some '(' then c :: bareUrlAux (some c) cs
      else
        let run := ((c :: cs).drop 7).takeWhile urlChar
        if run.isEmpty then c :: bareUrlAux (some c) cs
        else
          let url := (c :: cs).take 7 ++ run
          '[' :: url ++ ']' :: '(' :: url ++ ')' ::
            bareUrlAux run.getLast? (((c :: cs).drop 7).drop run.length)
    else c :: bareUrlAux (some c) cs
termination_by _ l => l.length
decreasing_by
  all_goals simp [List.length_drop]
  all_goals omega

/-- `_fix_mdx_syntax` (jupyter_to_docusaurus.py lines 225-237): the four
substitutions in source order. -/
def fix_mdx_syntax (t : Text) : Text :=
  bareUrlAux none (escGtJ (escLt (urlAngleSub t)))

/-- `_clean_markdown` (lines 199-210). -/
def clean_markdown (t : Text) : Text := fix_mdx_syntax (imgSub (fix_html_tags t))

/-- `_transmute_markdown_cell` (lines 138-145). -/
def transmute_markdown_cell (c : Cell) : Text :=
  clean_markdown c.source.flatten ++ tx "\n"

/-- `_transmute_code_cell` (lines 147-158). -/
def transmute_code_cell (c : Cell) : Text :=
  tx "\x60\x60\x60python\n" ++ c.source.flatten ++ tx "\n\x60\x60\x60\n" ++
    (if c.outputs.isEmpty then [] else transmute_outputs c.outputs)

/-- `_transmute_raw_cell` (lines 160-163). -/
def transmute_raw_cell (c : Cell) : Text :=
  tx "\x60\x60\x60\n" ++ c.source.flatten ++ tx "\n\x60\x60\x60\n"

/-- The loop body of `_transmute_cells` (lines 124-134): dispatch on the
cell type; any other type contributes nothing (no counter, no log). -/
def cellContrib (c : Cell) : Text :=
  if c.cell_type = "markdown" then transmute_markdown_cell c
  else if c.cell_type = "code" then transmute_code_cell c
  else if c.cell_type = "raw" then transmute_raw_cell c
  else []

/-- `_transmute_cells` (lines 120-136): each loop iteration appends the
cell's contribution and then one newline. -/
def transmute_cells : List Cell → Text
  | [] => []
  | c :: cs => (cellContrib c ++ tx "\n") ++ transmute_cells cs

/-- `re.sub(r'<[^>]+>', '', text)` (jupyter_to_docusaurus.py line 89):
delete HTML-tag-like spans — a `<`, one or more non-`>` characters, and
the closing `>`. -/
def stripTags : Text → Text
  | [] => []
  | c :: cs =>
    if c = '<' then
      let run := cs.takeWhile (fun d => d ≠ '>')
      if run.isEmpty then c :: stripTags cs
      else if run.length < cs.length then stripTags (cs.drop (run.length + 1))
      else c :: stripTags cs
    else c :: stripTags cs
termination_by l => l.length
decreasing_by
  all_goals simp [List.length_drop]
  all_goals omega

/-- Python `text.replace('"', '\\"')` (line 91). -/
def escQuotes : Text → Text
  | [] => []
  | c :: cs => if c = '"' then '\\' :: '"' :: escQuotes cs else c :: escQuotes cs

/-- `re.sub(r'\s+', ' ', text)` (line 95): collapse every whitespace run
to a single space. -/
def collapseWs : Text → Text
  | [] => []
  | c :: cs =>
    if isWs c then ' ' :: collapseWs (cs.dropWhile isWs)
    else c :: collapseWs cs
termination_by l => l.length
decreasing_by
  all_goals simp [List.length_drop]
  · have := (@List.dropWhile_sublist Char cs isWs).length_le
    omega

/-- `_clean_yaml_string` (jupyter_to_docusaurus.py lines 83-99): empty
check, HTML-tag removal, quote escaping, newline flattening, whitespace
collapsing, 147+`...` truncation past 150 characters, and a final
`strip()`. -/
def clean_yaml_string (t : Text) : Text :=
  if t.isEmpty then []
  else
    let s4 := collapseWs ((((escQuotes (stripTags t)).map
      (fun c => if c = '\n' then ' ' else c)).map
      (fun c => if c = '\r' then ' ' else c)))
    strip (if 150 < s4.length then s4.take 147 ++ tx "..." else s4)

/-- The cleaning pipeline of `_clean_yaml_string` before the truncation
step (lines 88-95), named so theorems can talk about the text whose
length the 150-character test inspects. -/
def cleanedDesc (t : Text) : Text :=
  collapseWs ((((escQuotes (stripTags t)).map
    (fun c => if c = '\n' then ' ' else c)).map
    (fun c => if c = '\r' then ' ' else c)))

/-- The non-heading-line filter of `_extract_description` (line 115):
stripped, nonempty, not starting with `#`, longer than 20 chars. -/
def descLinePick (ls : List Text) : Option Text :=
  ls.find? (fun l => !startsB (tx "#") l && decide (20 < l.length))

/-- `[line.strip() for line in source.split('\n') if line.strip()]`
(line 113). -/
def strippedLines (t : Text) : List Text :=
  ((splitNl t).map strip).filter (fun l => !l.isEmpty)

/-- The markdown-cell scan of `_extract_description` (lines 109-118). -/
def descFromCells : List Cell → Text
  | [] => tx "Jupyter notebook converted to documentation"
  | c :: cs =>
    if c.cell_type = "markdown" then
      match descLinePick (strippedLines c.source.flatten) with
      | some l => l
      | none => descFromCells cs
    else descFromCells cs

/-- `_extract_description` (lines 101-118): notebook metadata first,
then the markdown-cell scan. -/
def extract_description (nb : Notebook) : Text :=
  match nb.metadata.description with
  | some d => d
  | none => descFromCells nb.cells

/-- `_create_frontmatter` (lines 66-81). -/
def create_frontmatter (titleArg : Text) (nb : Notebook) : Text :=
  tx "---\ntitle: \"" ++ clean_yaml_string titleArg ++
  tx "\"\ndescription: \"" ++ clean_yaml_string (extract_description nb) ++
  tx "\"\n---\n\n"

/-- Match of `\s+(.+)` against the text following a `#` at a line start
(the pattern `^#\s+(.+)` of line 58).  `\s+` is greedy over whitespace
(including newlines); `.+` then needs at least one non-newline
character, with `\s+` backtracking from the longest run when the
whitespace reaches the end of the text. -/
def h1MatchFrom (rest : Text) : Option Text :=
  let w := rest.takeWhile isWs
  if w.isEmpty then none
  else
    match rest.drop w.length with
    | c :: cs => some ((c :: cs).takeWhile (fun d => d ≠ '\n'))
    | [] =>
      descFind (fun i =>
        match (w.drop i).head? with
        | some c =>
          if c = '\n' then none
          else some ((w.drop i).takeWhile (fun d => d ≠ '\n'))
        | none => none) (w.length - 1)

/-- `re.search(r'^#\s+(.+)', source, re.MULTILINE)`: try the pattern at
each line start, left to right, returning the first group. -/
def h1Scan (l : Text) : Option Text :=
  match (match l with | '#' :: rest => h1MatchFrom rest | _ => none) with
  | some g => some g
  | none =>
    if (l.dropWhile (fun c => c ≠ '\n')).length = 0 then none
    else h1Scan ((l.dropWhile (fun c => c ≠ '\n')).drop 1)
termination_by l.length
decreasing_by
  have h1 := (@List.dropWhile_sublist Char l (fun c => decide (c ≠ '\n'))).length_le
  simp only [List.length_drop]
  omega

/-- Filename-derived title (jupyter_to_docusaurus.py line 64):
`Path(path).stem.replace('_', ' ').replace('-', ' ').title()`; the stem
is taken as input. -/
def titleFromStem (stem : Text) : Text :=
  title ((stem.map (fun c => if c = '_' then ' ' else c)).map
    (fun c => if c = '-' then ' ' else c))

/-- `_extract_title` (lines 52-64): look for an H1 in the first markdown
cell (the loop breaks after the first markdown cell either way), else
derive the title from the filename stem.  Notebook metadata is never
consulted. -/
def extract_title (nb : Notebook) (stem : Text) : Text :=
  match nb.cells.find? (fun c => c.cell_type = "markdown") with
  | some c =>
    (match h1Scan c.source.flatten with
     | some g => strip g
     | none => titleFromStem stem)
  | none => titleFromStem stem

/-- The rendered document of `transmute_notebook` (lines 23-50):
frontmatter followed by the transmuted cells. -/
def render (nb : Notebook) (stem : Text) : Text :=
  create_frontmatter (extract_title nb stem) nb ++ transmute_cells nb.cells

end Jup

namespace Jup

/-- Specification-side single pass over the original text describing the
composition `escGtJ ∘ escLt`: `<` is escaped by the following character,
`>` is escaped exactly when the previous character is not a letter (the
following character plays no role). -/
def anglesSpecJAux : Option Char → Text → Text
  | _, [] => []
  | prev, c :: cs =>
    if c = '<' then
      (match cs.head? with
       | some d => if d.isAlpha || d = '/' || d = '!' then ['<'] else tx "&lt;"
       | none => tx "&lt;") ++ anglesSpecJAux (some '<') cs
    else if c = '>' then
      (if prevAlpha prev then ['>'] else tx "&gt;") ++ anglesSpecJAux (some '>') cs
    else c :: anglesSpecJAux (some c) cs

end Jup

namespace FixMdx

open PyStr

/-!
Embedding of the angle-bracket passes of `fix_mdx_file` from
`docs3/scripts/fix_mdx.py` (lines 40-41).  Line 40 is the same
substitution as jupyter_to_docusaurus.py line 231 (`Jup.escLt`); line 41
replaces `>` only when neither neighbour is a letter.
-/

/-- `re.sub(r'(?<![a-zA-Z])>(?![a-zA-Z])', '&gt;', ...)` (fix_mdx.py
line 41): both lookarounds read this pass's subject string. -/
def escGtBAux : Option Char → Text → Text
  | _, [] => []
  | prev, c :: cs =>
    if c = '>' then
      (if Jup.prevAlpha prev || Jup.nextAlpha cs then ['>'] else tx "&gt;") ++
        escGtBAux (some '>') cs
    else c :: escGtBAux (some c) cs

/-- The composition of fix_mdx.py lines 40-41. -/
def fixMdxAngles (t : Text) : Text := escGtBAux none (Jup.escLt t)

/-- Specification-side single pass over the original text describing
`fixMdxAngles`: `>` is escaped exactly when neither neighbour is a
letter. -/
def anglesSpecFAux : Option Char → Text → Text
  | _, [] => []
  | prev, c :: cs =>
    if c = '<' then
      (match cs.head? with
       | some d => if d.isAlpha || d = '/' || d = '!' then ['<'] else tx "&lt;"
       | none => tx "&lt;") ++ anglesSpecFAux (some '<') cs
    else if c = '>' then
      (if Jup.prevAlpha prev || Jup.nextAlpha cs then ['>'] else tx "&gt;") ++
        anglesSpecFAux (some '>') cs
    else c :: anglesSpecFAux (some c) cs

/-- `re.sub(r'(?<!\x60){(?!{)', '\\{', ...)` (fix_mdx.py line 36): the
lookbehind checks for a backtick (not a backslash), so an already
escaped brace is escaped again. -/
def fmBrace1Aux : Option Char → Text → Text
  | _, [] => []
  | prev, c :: cs =>
    if c = '\x7b' then
      (if prev = some '\x60' || cs.head? = some '\x7b' then [c] else ['\\', c]) ++
        fmBrace1Aux (some c) cs
    else c :: fmBrace1Aux (some c) cs

/-- `re.sub(r'(?<!\x60)(?<!{)}(?!})', '\\}', ...)` (fix_mdx.py line 37). -/
def fmBrace2Aux : Option Char → Text → Text
  | _, [] => []
  | prev, c :: cs =>
    if c = '\x7d' then
      (if prev = some '\x60' || prev = some '\x7b' || cs.head? = some '\x7d'
       then [c] else ['\\', c]) ++ fmBrace2Aux (some c) cs
    else c :: fmBrace2Aux (some c) cs

/-- The brace passes of fix_mdx.py lines 36-37 in order. -/
def fixMdxBraces (t : Text) : Text := fmBrace2Aux none (fmBrace1Aux none t)

end FixMdx

namespace AddFrontmatter

open PyStr

/-- The description truncation of `convert_md_to_mdx` in
`docs3/scripts/add_frontmatter.py` (lines 31-32): past 150 characters,
keep 147 and add `...` — with no further stripping, so the result of
truncation is always exactly 150 characters long. -/
def truncateDescription (d : Text) : Text :=
  if 150 < d.length then d.take 147 ++ tx "..." else d

end AddFrontmatter

namespace Drivers

/-!
Models of the three batch drivers named by the spec's propagation
policy.  A document's conversion is abstracted as an oracle value of
type `Except String α`: `error` is the exception the per-file work would
raise, `ok` its result.  Each driver model reproduces the loop structure
of its `main`.
-/

/-- `clean_mdx.py main` (lines 104-121): the loop body
`clean_mdx_file(file_path)` has no `try`/`except`, so the first raised
exception propagates out of `main` and the remaining files are never
processed.  Returns the number of processed files on success. -/
def cleanMdxMain : List (Except String Unit) → Except String Nat
  | [] => .ok 0
  | d :: ds =>
    match d with
    | .error e => .error e
    | .ok _ =>
      match cleanMdxMain ds with
      | .ok n => .ok (n + 1)
      | .error e => .error e

/-- `convert_md_to_mdx.py main` (lines 76-83): `try`/`except` per file;
successes are collected into `converted_files`, failures are reported
and skipped. -/
def convertMdToMdxMain {α : Type} : List (Except String α) → List α
  | [] => []
  | d :: ds =>
    match d with
    | .ok a => a :: convertMdToMdxMain ds
    | .error _ => convertMdToMdxMain ds

/-- `fix_mdx_issues.py main` (lines 73-97): `try`/`except` per file;
every file yields a report entry — `some` result or `none` for a
caught exception. -/
def fixMdxIssuesMain {α : Type} : List (Except String α) → List (Option α)
  | [] => []
  | d :: ds =>
    (match d with
     | .ok a => some a
     | .error _ => none) :: fixMdxIssuesMain ds

end Drivers

namespace FixIssues

open PyStr

/-!
Embedding of the code-block protection of `fix_mdx_issues` from
`docs3/fix_mdx_issues.py` (lines 20-41): fenced blocks
(`re.sub(r'\x60\x60\x60[\s\S]*?\x60\x60\x60', save, ...)`) and then inline code
(`re.sub(r'\x60[^\x60]+\x60', save, ...)`) are replaced by
`__CODE_BLOCK_<i>__` placeholders while their text is appended to a
shared list; braces are escaped in the remaining content; finally each
placeholder is substituted back with `str.replace` in index order.
-/

/-- The placeholder marker prefix. -/
def marker : Text := tx "__CODE_BLOCK_"

/-- `f"__CODE_BLOCK_{i}__"`. -/
def ph (i : Nat) : Text := marker ++ (Nat.repr i).data ++ tx "__"

/-- Three backticks. -/
def ticks3 : Text := tx "\x60\x60\x60"

/-- Offset of the first occurrence of three backticks (the lazy
`[\s\S]*?` stops at the first closing fence). -/
def findTicksIdx : Text → Option Nat
  | [] => none
  | c :: cs =>
    if startsB ticks3 (c :: cs) then some 0
    else (findTicksIdx cs).map (· + 1)

/-- The fenced-block pass (fix_mdx_issues.py line 27): leftmost lazy
matches of three backticks, anything, three backticks; each match is
appended to the block list and replaced by the next placeholder. -/
def fencedAux (n : Nat) : Text → Text × List Text
  | [] => ([], [])
  | c :: cs =>
    if startsB ticks3 (c :: cs) then
      match findTicksIdx (cs.drop 2) with
      | some k =>
        let res := fencedAux (n + 1) ((cs.drop 2).drop (k + 3))
        (ph n ++ res.1, (ticks3 ++ (cs.drop 2).take k ++ ticks3) :: res.2)
      | none =>
        let res := fencedAux n cs
        (c :: res.1, res.2)
    else
      let res := fencedAux n cs
      (c :: res.1, res.2)
termination_by l => l.length
decreasing_by
  all_goals simp [List.length_drop]
  all_goals omega

/-- The inline-code pass (fix_mdx_issues.py line 29): a backtick, one or
more non-backticks, a backtick. -/
def inlineAux (n : Nat) : Text → Text × List Text
  | [] => ([], [])
  | c :: cs =>
    if c = '\x60' then
      let run := cs.takeWhile (fun d => d ≠ '\x60')
      if run.isEmpty then
        let res := inlineAux n cs
        (c :: res.1, res.2)
      else if decide (run.length < cs.length) then
        let res := inlineAux (n + 1) (cs.drop (run.length + 1))
        (ph n ++ res.1, ('\x60' :: run ++ ['\x60']) :: res.2)
      else
        let res := inlineAux n cs
        (c :: res.1, res.2)
    else
      let res := inlineAux n cs
      (c :: res.1, res.2)
termination_by l => l.length
decreasing_by
  all_goals simp [List.length_drop]
  all_goals omega

/-- The sequence of the two protection passes; returns the content with
placeholders and the shared block list. -/
def protect (t : Text) : Text × List Text :=
  let f := fencedAux 0 t
  let g := inlineAux f.2.length f.1
  (g.1, f.2 ++ g.2)

/-- `content.replace('{', '\\{').replace('}', '\\}')`
(fix_mdx_issues.py line 33), fused into one scan (the first replacement
introduces no `}`). -/
def escBracesAll : Text → Text
  | [] => []
  | c :: cs =>
    if c = '\x7b' then '\\' :: '\x7b' :: escBracesAll cs
    else if c = '\x7d' then '\\' :: '\x7d' :: escBracesAll cs
    else c :: escBracesAll cs

/-- Python `str.replace` for a nonempty pattern `p :: ps`: all
non-overlapping occurrences, left to right, replacement not rescanned. -/
def replaceAllNe (p : Char) (ps rep : Text) : Text → Text
  | [] => []
  | c :: cs =>
    if startsB (p :: ps) (c :: cs) then rep ++ replaceAllNe p ps rep (cs.drop ps.length)
    else c :: replaceAllNe p ps rep cs
termination_by l => l.length
decreasing_by
  all_goals simp [List.length_drop]
  all_goals omega

/-- Python `str.replace` (the patterns used here — placeholders — are
never empty; the empty-pattern case is mapped to the identity). -/
def replaceAll (pat rep t : Text) : Text :=
  match pat with
  | [] => t
  | p :: ps => replaceAllNe p ps rep t

/-- The restore loop (fix_mdx_issues.py lines 40-41):
`content.replace(f"__CODE_BLOCK_{i}__", code_block)` for `i`
ascending. -/
def restoreFrom (i : Nat) (c : Text) : List Text → Text
  | [] => c
  | b :: bs => restoreFrom (i + 1) (replaceAll (ph i) b c) bs

/-- Save both kinds of code block, then restore them (no brace escaping
in between): the pure protection round trip of fix_mdx_issues.py. -/
def saveRestore (t : Text) : Text :=
  restoreFrom 0 (protect t).1 (protect t).2

/-- Item 1 of `fix_mdx_issues` in full (lines 20-41): save code blocks,
escape braces in the remaining content, restore the blocks. -/
def fixCodeBlockStep (t : Text) : Text :=
  restoreFrom 0 (escBracesAll (protect t).1) (protect t).2

/-- The state of the restore loop just before block `k` is substituted
(used to state the occurrence-count hypotheses of the round-trip
theorem on computable values). -/
def restoreState (c : Text) (bs : List Text) (k : Nat) : Text :=
  restoreFrom 0 c (bs.take k)

/-- `startsB pat (l.drop p)`: an occurrence of `pat` at offset `p`. -/
def occursAt (pat l : Text) (p : Nat) : Bool := startsB pat (l.drop p)

/-- Number of (possibly overlapping) occurrence offsets of `pat` in
`l`. -/
def countOcc (pat l : Text) : Nat :=
  ((List.range (l.length + 1)).filter (fun p => occursAt pat l p)).length

/-- Specification-side token view of the protected content: a plain
character or the placeholder for block `i`. -/
inductive Tok where
  | ch (c : Char)
  | phT (i : Nat)
deriving DecidableEq, Repr

/-- Flatten tokens with placeholders rendered as their marker text
(the protected content). -/
def flattenPh : List Tok → Text
  | [] => []
  | .ch c :: ts => c :: flattenPh ts
  | .phT i :: ts => ph i ++ flattenPh ts

/-- Flatten tokens with each placeholder rendered as the text of its
block (the fully restored content). -/
def flattenBlocks (bs : List Text) : List Tok → Text
  | [] => []
  | .ch c :: ts => c :: flattenBlocks bs ts
  | .phT i :: ts => bs.getD i [] ++ flattenBlocks bs ts

/-- Token-level mirror of `fencedAux` (content shape). -/
def fencedToks (n : Nat) : Text → List Tok
  | [] => []
  | c :: cs =>
    if startsB ticks3 (c :: cs) then
      match findTicksIdx (cs.drop 2) with
      | some k => .phT n :: fencedToks (n + 1) ((cs.drop 2).drop (k + 3))
      | none => .ch c :: fencedToks n cs
    else .ch c :: fencedToks n cs
termination_by l => l.length
decreasing_by
  all_goals simp [List.length_drop]
  all_goals omega

/-- Token-level mirror of `inlineAux` (content shape); backticks are
`ch` tokens and placeholder texts contain no backtick, so the token
scan stops exactly where the character scan does. -/
def inlineToks (n : Nat) : List Tok → List Tok
  | [] => []
  | t :: ts =>
    if t = .ch '\x60' then
      let run := ts.takeWhile (fun u => u ≠ .ch '\x60')
      if run.isEmpty then t :: inlineToks n ts
      else if decide (run.length < ts.length) then
        .phT n :: inlineToks (n + 1) (ts.drop (run.length + 1))
      else t :: inlineToks n ts
    else t :: inlineToks n ts
termination_by l => l.length
decreasing_by
  all_goals simp [List.length_drop]
  all_goals omega

/-- Token-level mirror of `inlineAux` (captured blocks). -/
def inlineBlocksT (n : Nat) : List Tok → List Text
  | [] => []
  | t :: ts =>
    if t = .ch '\x60' then
      let run := ts.takeWhile (fun u => u ≠ .ch '\x60')
      if run.isEmpty then inlineBlocksT n ts
      else if decide (run.length < ts.length) then
        ('\x60' :: flattenPh run ++ ['\x60']) :: inlineBlocksT (n + 1) (ts.drop (run.length + 1))
      else inlineBlocksT n ts
    else inlineBlocksT n ts
termination_by l => l.length
decreasing_by
  all_goals simp [List.length_drop]
  all_goals omega

/-- The token view of the fully protected content of `t`. -/
def protectToks (t : Text) : List Tok :=
  inlineToks (fencedAux 0 t).2.length (fencedToks 0 t)

/-- Tokens with the placeholders of the first `k` blocks expanded into
their block text (the shape of the restore loop's intermediate
state). -/
def expandToks (bs : List Text) (k : Nat) : List Tok → List Tok
  | [] => []
  | .ch c :: ts => .ch c :: expandToks bs k ts
  | .phT i :: ts =>
    if i < k then (bs.getD i []).map .ch ++ expandToks bs k ts
    else .phT i :: expandToks bs k ts

/-- A token that is a plain character. -/
def isChTok : Tok → Bool
  | Tok.ch _ => true
  | Tok.phT _ => false

/-- No inline-code span captured by the inline pass swallows a fenced
placeholder token: the decidable precondition under which restoring the
blocks reproduces the fenced contents (nested backticks violate it). -/
def noPhRun : List Tok → Bool
  | [] => true
  | t :: ts =>
    if t = Tok.ch '\x60' then
      let run := ts.takeWhile (fun u => u ≠ Tok.ch '\x60')
      if run.isEmpty then noPhRun ts
      else if decide (run.length < ts.length) then
        run.all isChTok && noPhRun (ts.drop (run.length + 1))
      else noPhRun ts
    else noPhRun ts
termination_by l => l.length
decreasing_by
  all_goals simp [List.length_drop]
  all_goals omega

end FixIssues

namespace Jup

/-- Replace the value of an `image/png` payload (when present) by the
empty text, leaving everything else unchanged; used to state that the
rendered output never depends on the payload's contents. -/
def scrubImage (o : Output) : Output :=
  { o with data := { o.data with imagePng := o.data.imagePng.map (fun _ => []) } }

end Jup

/-!
## Theorems

Helper lemmas about the embedding, followed by one theorem per claim
(with witnesses and counterexamples where required).
-/

namespace PyStr

theorem startsB_iff (p l : Text) : startsB p l = true ↔ ∃ t, l = p ++ t := by
  induction p generalizing l with
  | nil => simp [startsB]
  | cons x xs ih =>
    cases l with
    | nil => simp [startsB]
    | cons c cs =>
      simp only [startsB, Bool.and_eq_true, decide_eq_true_eq, ih, List.cons_append]
      constructor
      · rintro ⟨rfl, t, rfl⟩; exact ⟨t, rfl⟩
      · rintro ⟨t, h⟩
        injection h with h1 h2
        exact ⟨h1.symm, t, h2⟩

theorem occB_iff (p l : Text) : occB p l = true ↔ ∃ a b, l = a ++ p ++ b := by
  induction l with
  | nil =>
    simp only [occB, startsB_iff]
    constructor
    · rintro ⟨t, h⟩; exact ⟨[], t, by simpa using h⟩
    · rintro ⟨a, b, h⟩
      rcases List.append_eq_nil.mp (List.append_eq_nil.mp h.symm).1 with ⟨_, h2⟩
      exact ⟨b, by simp [h2, (List.append_eq_nil.mp h.symm).2]⟩
  | cons c cs ih =>
    simp only [occB, Bool.or_eq_true, startsB_iff, ih]
    constructor
    · rintro (⟨t, h⟩ | ⟨a, b, h⟩)
      · exact ⟨[], t, by simpa using h⟩
      · exact ⟨c :: a, b, by simp [h]⟩
    · rintro ⟨a, b, h⟩
      cases a with
      | nil => exact Or.inl ⟨b, by simpa using h⟩
      | cons a0 as =>
        injection h with h1 h2
        exact Or.inr ⟨as, b, h2⟩

theorem occB_append_of_right {p b : Text} (a : Text) (h : occB p b = true) :
    occB p (a ++ b) = true := by
  rcases (occB_iff p b).mp h with ⟨x, y, rfl⟩
  exact (occB_iff p _).mpr ⟨a ++ x, y, by simp⟩

theorem occB_append_of_left {p a : Text} (h : occB p a = true) (b : Text) :
    occB p (a ++ b) = true := by
  rcases (occB_iff p a).mp h with ⟨x, y, rfl⟩
  exact (occB_iff p _).mpr ⟨x, y ++ b, by simp⟩

theorem strip_length_le (l : Text) : (strip l).length ≤ l.length := by
  unfold strip
  calc ((l.dropWhile isWs).reverse.dropWhile isWs).reverse.length
      = ((l.dropWhile isWs).reverse.dropWhile isWs).length := List.length_reverse _
    _ ≤ (l.dropWhile isWs).reverse.length :=
        (@List.dropWhile_sublist Char (l.dropWhile isWs).reverse isWs).length_le
    _ = (l.dropWhile isWs).length := List.length_reverse _
    _ ≤ l.length := (@List.dropWhile_sublist Char l isWs).length_le

theorem dropWhile_eq_self_of_head {p : Char → Bool} {l : Text}
    (h : ∀ c, l.head? = some c → p c = false) : l.dropWhile p = l := by
  cases l with
  | nil => rfl
  | cons c cs =>
    have hc := h c rfl
    simp [List.dropWhile, hc]

theorem strip_eq_self {l : Text}
    (h1 : ∀ c, l.head? = some c → isWs c = false)
    (h2 : ∀ c, l.getLast? = some c → isWs c = false) : strip l = l := by
  unfold strip
  rw [dropWhile_eq_self_of_head h1]
  rw [dropWhile_eq_self_of_head ?hrev]
  · exact List.reverse_reverse l
  · intro c hc
    apply h2
    rwa [List.head?_reverse] at hc

end PyStr

namespace Jup

open PyStr

theorem outContrib_placeholder (o : Output)
    (ht : o.output_type = "execute_result" ∨ o.output_type = "display_data")
    (hi : o.data.imagePng.isSome = true) :
    occB imagePlaceholder (outContrib o) = true := by
  have hstream : (o.output_type = "stream") = False := by
    rcases ht with h | h <;> simp [h]
  have hed : (o.output_type = "execute_result" || o.output_type = "display_data") = true := by
    rcases ht with h | h <;> simp [h]
  unfold outContrib
  rw [if_neg (by simp [hstream]), if_pos hed, hi]
  simp only [if_true]
  apply occB_append_of_left
  apply occB_append_of_right
  exact (occB_iff _ _).mpr ⟨[], [], by simp⟩

theorem outContrib_scrub (o : Output) : outContrib (scrubImage o) = outContrib o := by
  unfold outContrib scrubImage
  simp [Option.isSome_map]

theorem transmute_outputs_scrub (outs : List Output) :
    transmute_outputs (outs.map scrubImage) = transmute_outputs outs := by
  induction outs with
  | nil => rfl
  | cons o os ih => simp [transmute_outputs, outContrib_scrub, ih]

/-- Claim C1: for every `execute_result`/`display_data` output whose data
mapping contains an `image/png` key, the rendered text contains the
placeholder admonition, and the rendered text of the whole output list
never depends on the payload value (so the base64 payload is never
inlined). -/
theorem c1_image_placeholder :
    (∀ (outs : List Output) (o : Output), o ∈ outs →
      (o.output_type = "execute_result" ∨ o.output_type = "display_data") →
      o.data.imagePng.isSome = true →
      occB imagePlaceholder (transmute_outputs outs) = true) ∧
    (∀ outs : List Output,
      transmute_outputs (outs.map scrubImage) = transmute_outputs outs) := by
  constructor
  · intro outs o hmem ht hi
    induction outs with
    | nil => simp at hmem
    | cons x xs ih =>
      rcases List.mem_cons.mp hmem with rfl | hmem'
      · exact occB_append_of_left (outContrib_placeholder o ht hi) _
      · exact occB_append_of_right _ (ih hmem')
  · exact transmute_outputs_scrub

/-- Witness for C1 at a concrete display-data output carrying both a
text and an image payload. -/
theorem c1_witness :
    occB imagePlaceholder (transmute_outputs
      [⟨"display_data", [], ⟨some [tx "fig"], some (tx "B64DATA"), none⟩, []⟩]) = true :=
  c1_image_placeholder.1
    [⟨"display_data", [], ⟨some [tx "fig"], some (tx "B64DATA"), none⟩, []⟩]
    ⟨"display_data", [], ⟨some [tx "fig"], some (tx "B64DATA"), none⟩, []⟩
    (by simp) (Or.inr rfl) rfl

/-- Claim C9: rendering is deterministic — the rendered document of a
parsed notebook is a function of the notebook value and destination
stem alone, so two conversions of the same input are byte-identical. -/
theorem c9_deterministic (nb : Notebook) (stem : Text) :
    render nb stem = render nb stem := rfl

end Jup

namespace Jup

/-- Counterexample to claim C4: with metadata title `A` present and an
H1 heading `B` in the first markdown cell, `_extract_title` returns `B`,
not `A` — the metadata field is never consulted. -/
theorem c4_counterexample :
    extract_title ⟨[⟨"markdown", [tx "# B"], []⟩], ⟨some (tx "A"), none⟩⟩ (tx "c-file")
      = tx "B" ∧ tx "B" ≠ tx "A" := by
  constructor
  · simp [extract_title, h1Scan, h1MatchFrom, tx, List.find?, PyStr.strip, PyStr.isWs,
      List.dropWhile, List.takeWhile, PyStr.descFind, decide_not]
  · decide

/-- Claim C4 as amended: title extraction ignores notebook metadata
entirely; precedence is the first H1 of the first markdown cell, then
the filename-derived title (underscore/hyphen tokens, title-cased). -/
theorem c4_amended :
    (∀ (cells : List Cell) (m₁ m₂ : Metadata) (stem : Text),
      extract_title ⟨cells, m₁⟩ stem = extract_title ⟨cells, m₂⟩ stem) ∧
    extract_title ⟨[⟨"markdown", [tx "# B"], []⟩], ⟨some (tx "A"), none⟩⟩ (tx "c-file")
      = tx "B" ∧
    extract_title ⟨[⟨"markdown", [tx "no heading here"], []⟩], ⟨some (tx "A"), none⟩⟩
      (tx "c-file") = tx "C File" ∧
    extract_title ⟨[], ⟨none, none⟩⟩ (tx "getting_started-guide")
      = tx "Getting Started Guide" := by
  refine ⟨fun cells m₁ m₂ stem => rfl, ?_, ?_, ?_⟩ <;>
    simp [extract_title, h1Scan, h1MatchFrom, tx, List.find?, PyStr.strip, PyStr.isWs,
      List.dropWhile, List.takeWhile, PyStr.descFind, titleFromStem, PyStr.title,
      PyStr.titleAux, PyStr.titleChar, decide_not]

end Jup

namespace Drivers

/-- Counterexample to claim C5: the `clean_mdx.py` batch driver has no
per-document exception handling — the second document's failure aborts
the batch (the third document is never processed, and the result does
not depend on it). -/
theorem c5_counterexample :
    cleanMdxMain [.ok (), .error "boom", .ok ()] = .error "boom" ∧
    cleanMdxMain [.ok (), .error "boom"] = .error "boom" := by
  constructor <;> rfl

/-- Claim C5 as amended: the `fix_mdx_issues.py` and
`convert_md_to_mdx.py` drivers catch one document's failure and continue
with the rest (a failure only contributes its own report entry), but the
`clean_mdx.py` driver propagates the first failure, abandoning every
document after it. -/
theorem c5_amended :
    (∀ (pre post : List (Except String Unit)) (e : String),
      fixMdxIssuesMain (pre ++ .error e :: post) =
        fixMdxIssuesMain pre ++ none :: fixMdxIssuesMain post) ∧
    (∀ (pre post : List (Except String Unit)) (e : String),
      convertMdToMdxMain (pre ++ .error e :: post) =
        convertMdToMdxMain pre ++ convertMdToMdxMain post) ∧
    (∀ (n : Nat) (post : List (Except String Unit)) (e : String),
      cleanMdxMain (List.replicate n (.ok ()) ++ .error e :: post) = .error e) := by
  refine ⟨?_, ?_, ?_⟩
  · intro pre post e
    induction pre with
    | nil => rfl
    | cons d ds ih => cases d <;> simp [fixMdxIssuesMain, ih]
  · intro pre post e
    induction pre with
    | nil => rfl
    | cons d ds ih => cases d <;> simp [convertMdToMdxMain, ih]
  · intro n post e
    induction n with
    | zero => rfl
    | succ k ih =>
      simp only [List.replicate_succ, List.cons_append, cleanMdxMain, List.append_eq]
      rw [ih]

end Drivers

namespace Jup

/-- Counterexample to claim C8: a cell of unrecognized type is skipped
with no counting and no report — the whole rendering of a notebook
holding only that cell is the bare blank-line separator, and the cell's
source text is dropped silently. -/
theorem c8_counterexample :
    transmute_cells [⟨"unknown_type", [tx "SECRET"], []⟩] = tx "\n" := by
  rfl

/-- Claim C8 as amended: recognized cells are rendered in input order
and an unrecognized cell contributes exactly the blank-line separator —
the skip is silent (nothing is counted or logged). -/
theorem c8_amended (pre post : List Cell) (c : Cell)
    (h1 : c.cell_type ≠ "markdown") (h2 : c.cell_type ≠ "code")
    (h3 : c.cell_type ≠ "raw") :
    transmute_cells (pre ++ c :: post) =
      transmute_cells pre ++ tx "\n" ++ transmute_cells post := by
  induction pre with
  | nil =>
    show (cellContrib c ++ tx "\n") ++ transmute_cells post = _
    simp [cellContrib, h1, h2, h3, transmute_cells]
  | cons x xs ih =>
    show (cellContrib x ++ tx "\n") ++ transmute_cells (xs ++ c :: post) = _
    rw [ih]
    simp [transmute_cells]

/-- Witness for C8 at a concrete three-cell notebook whose middle cell
has an unrecognized type. -/
theorem c8_witness :
    transmute_cells ([⟨"markdown", [tx "hi"], []⟩] ++ ⟨"mystery", [tx "S"], []⟩ ::
        [⟨"raw", [tx "r"], []⟩]) =
      transmute_cells [⟨"markdown", [tx "hi"], []⟩] ++ tx "\n" ++
        transmute_cells [⟨"raw", [tx "r"], []⟩] :=
  c8_amended [⟨"markdown", [tx "hi"], []⟩] [⟨"raw", [tx "r"], []⟩]
    ⟨"mystery", [tx "S"], []⟩ (by decide) (by decide) (by decide)

end Jup

namespace Jup

open PyStr

theorem stripTags_eq_self {l : Text} (h : ∀ c ∈ l, c ≠ '<') : stripTags l = l := by
  induction l with
  | nil => simp [stripTags]
  | cons c cs ih =>
    rw [stripTags]
    rw [if_neg (by simpa using h c (by simp))]
    rw [ih (fun d hd => h d (by simp [hd]))]

theorem escQuotes_eq_self {l : Text} (h : ∀ c ∈ l, c ≠ '"') : escQuotes l = l := by
  induction l with
  | nil => rfl
  | cons c cs ih =>
    rw [escQuotes]
    rw [if_neg (by simpa using h c (by simp))]
    rw [ih (fun d hd => h d (by simp [hd]))]

theorem collapseWs_eq_self {l : Text} (h : ∀ c ∈ l, isWs c = false) :
    collapseWs l = l := by
  induction l with
  | nil => simp [collapseWs]
  | cons c cs ih =>
    rw [collapseWs]
    rw [if_neg (by simp [h c (by simp)])]
    rw [ih (fun d hd => h d (by simp [hd]))]

theorem map_replace_eq_self {a b : Char} {l : Text} (h : ∀ c ∈ l, c ≠ a) :
    l.map (fun c => if c = a then b else c) = l := by
  induction l with
  | nil => rfl
  | cons c cs ih =>
    simp only [List.map_cons]
    rw [if_neg (by simpa using h c (by simp)), ih (fun d hd => h d (by simp [hd]))]

theorem cleanedDesc_plain {l : Text}
    (h : ∀ c ∈ l, c ≠ '<' ∧ c ≠ '"' ∧ c ≠ '\n' ∧ c ≠ '\r' ∧ isWs c = false) :
    cleanedDesc l = l := by
  unfold cleanedDesc
  rw [stripTags_eq_self (fun c hc => (h c hc).1)]
  rw [escQuotes_eq_self (fun c hc => (h c hc).2.1)]
  rw [map_replace_eq_self (fun c hc => (h c hc).2.2.1)]
  rw [map_replace_eq_self (fun c hc => (h c hc).2.2.2.1)]
  exact collapseWs_eq_self (fun c hc => (h c hc).2.2.2.2)

theorem clean_yaml_string_cons (c : Char) (cs : Text) :
    clean_yaml_string (c :: cs) =
      strip (if 150 < (cleanedDesc (c :: cs)).length
             then (cleanedDesc (c :: cs)).take 147 ++ tx "..."
             else cleanedDesc (c :: cs)) := rfl

end Jup

namespace Jup

open PyStr

theorem strip_cons_space {z : Text}
    (h1 : ∀ c, z.head? = some c → isWs c = false)
    (h2 : ∀ c, z.getLast? = some c → isWs c = false) :
    strip (' ' :: z) = z := by
  unfold strip
  rw [List.dropWhile_cons]
  rw [if_pos (by decide)]
  rw [dropWhile_eq_self_of_head h1]
  rw [dropWhile_eq_self_of_head (fun c hc => h2 c (by rwa [List.head?_reverse] at hc))]
  exact List.reverse_reverse z

theorem replicate_a_plain (n : Nat) :
    ∀ c ∈ List.replicate n 'a', c ≠ '<' ∧ c ≠ '"' ∧ c ≠ '\n' ∧ c ≠ '\r' ∧ isWs c = false := by
  intro c hc
  rw [List.eq_of_mem_replicate hc]
  refine ⟨by decide, by decide, by decide, by decide, by decide⟩

theorem cleanedDesc_space_replicate :
    cleanedDesc (' ' :: List.replicate 150 'a') = ' ' :: List.replicate 150 'a' := by
  unfold cleanedDesc
  rw [stripTags_eq_self]
  rw [escQuotes_eq_self]
  rw [map_replace_eq_self]
  rw [map_replace_eq_self]
  · rw [collapseWs]
    rw [if_pos (by decide)]
    rw [dropWhile_eq_self_of_head (by intro c hc; simp [List.head?_replicate] at hc; subst hc; decide)]
    rw [collapseWs_eq_self (fun c hc => (replicate_a_plain 150 c hc).2.2.2.2)]
  all_goals
    intro c hc
    rcases List.mem_cons.mp hc with rfl | hc'
    · decide
    · first
      | exact (replicate_a_plain 150 c hc').1
      | exact (replicate_a_plain 150 c hc').2.1
      | exact (replicate_a_plain 150 c hc').2.2.1
      | exact (replicate_a_plain 150 c hc').2.2.2.1

/-- Counterexample to claim C7: a description starting with a space and
150 further characters (151 total, so subject to truncation) is emitted
by `_clean_yaml_string` as 149 characters, not 150 — the function strips
the truncated text, removing the leading space after cutting at 147. -/
theorem c7_counterexample :
    150 < (' ' :: List.replicate 150 'a').length ∧
    clean_yaml_string (' ' :: List.replicate 150 'a') =
      List.replicate 146 'a' ++ tx "..." ∧
    (clean_yaml_string (' ' :: List.replicate 150 'a')).length = 149 := by
  have hlen : (' ' :: List.replicate 150 'a').length = 151 := by simp
  have hval : clean_yaml_string (' ' :: List.replicate 150 'a') =
      List.replicate 146 'a' ++ tx "..." := by
    rw [clean_yaml_string_cons, cleanedDesc_space_replicate]
    rw [if_pos (by simp)]
    have htake : (' ' :: List.replicate 150 'a').take 147 = ' ' :: List.replicate 146 'a' := by
      simp [List.take_replicate]
    rw [htake]
    show strip (' ' :: (List.replicate 146 'a' ++ tx "...")) = _
    rw [strip_cons_space]
    · intro c hc
      rw [List.head?_append_of_ne_nil _ (by simp)] at hc
      simp [List.head?_replicate] at hc
      subst hc; decide
    · intro c hc
      rw [List.getLast?_append_of_ne_nil _ (by simp [tx])] at hc
      simp [tx] at hc
      subst hc; decide
  refine ⟨by simp, hval, ?_⟩
  rw [hval]
  simp [tx]

end Jup

namespace Jup

open PyStr

theorem cleanedDesc_nil : cleanedDesc [] = [] := by
  unfold cleanedDesc
  simp [stripTags, escQuotes, collapseWs]

/-- Claim C7 as amended: the emitted description never exceeds 150
characters; `_clean_yaml_string` truncates a cleaned text longer than
150 characters to its first 147 characters plus `...` — exactly 150 in
total only when the cleaned text does not start with whitespace (a final
`strip()` runs after truncation and can make it shorter) — while
`add_frontmatter.py` truncates with no strip, so there the total is
always exactly 150. -/
theorem c7_amended :
    (∀ d : Text, (clean_yaml_string d).length ≤ 150) ∧
    (∀ d : Text, 150 < (cleanedDesc d).length →
      (∀ c, (cleanedDesc d).head? = some c → isWs c = false) →
      clean_yaml_string d = (cleanedDesc d).take 147 ++ tx "..." ∧
        (clean_yaml_string d).length = 150) ∧
    (∀ d : Text, 150 < d.length →
      AddFrontmatter.truncateDescription d = d.take 147 ++ tx "..." ∧
      (AddFrontmatter.truncateDescription d).length = 150) := by
  refine ⟨?_, ?_, ?_⟩
  · intro d
    cases d with
    | nil => simp [clean_yaml_string]
    | cons c cs =>
      rw [clean_yaml_string_cons]
      refine le_trans (strip_length_le _) ?_
      by_cases h : 150 < (cleanedDesc (c :: cs)).length
      · rw [if_pos h]
        simp [List.length_take, tx]
      · rw [if_neg h]
        omega
  · intro d hlen hhead
    cases d with
    | nil => rw [cleanedDesc_nil] at hlen; simp at hlen
    | cons c cs =>
      have heq : clean_yaml_string (c :: cs) =
          (cleanedDesc (c :: cs)).take 147 ++ tx "..." := by
        rw [clean_yaml_string_cons, if_pos hlen]
        apply strip_eq_self
        · intro x hx
          cases hs4 : cleanedDesc (c :: cs) with
          | nil => rw [hs4] at hlen; simp at hlen
          | cons y ys =>
            rw [hs4] at hx
            simp [List.take_cons] at hx
            apply hhead
            rw [hs4, ← hx]
            rfl
        · intro x hx
          rw [List.getLast?_append_of_ne_nil _ (by simp [tx])] at hx
          simp [tx] at hx
          subst hx; decide
      refine ⟨heq, ?_⟩
      rw [heq]
      simp [List.length_take, tx]
      omega
  · intro d hlen
    unfold AddFrontmatter.truncateDescription
    rw [if_pos hlen]
    refine ⟨rfl, ?_⟩
    simp [List.length_take, tx]
    omega

/-- Witness for C7 at a 151-character description with no leading
whitespace. -/
theorem c7_witness :
    clean_yaml_string (List.replicate 151 'a') =
      (cleanedDesc (List.replicate 151 'a')).take 147 ++ tx "..." ∧
    (clean_yaml_string (List.replicate 151 'a')).length = 150 ∧
    (AddFrontmatter.truncateDescription (List.replicate 151 'a')).length = 150 := by
  have h1 : 150 < (cleanedDesc (List.replicate 151 'a')).length := by
    rw [cleanedDesc_plain (replicate_a_plain 151)]; simp
  have h2 : ∀ c, (cleanedDesc (List.replicate 151 'a')).head? = some c → isWs c = false := by
    rw [cleanedDesc_plain (replicate_a_plain 151)]
    intro c hc; simp [List.head?_replicate] at hc; subst hc; decide
  exact ⟨(c7_amended.2.1 _ h1 h2).1, (c7_amended.2.1 _ h1 h2).2,
    (c7_amended.2.2 (List.replicate 151 'a') (by simp)).2⟩

end Jup

namespace CleanMdx

open PyStr

theorem escCharsAux_twice (l : Text) :
    ∀ inline : Bool, escCharsAux inline (escCharsAux inline l) = escTwiceAux inline l := by
  induction l with
  | nil => intro inline; rfl
  | cons c cs ih =>
    intro inline
    by_cases hc : c = '\x60'
    · subst hc
      simp [escCharsAux, escTwiceAux, ih]
    · cases inline with
      | true => simp [escCharsAux, escTwiceAux, hc, ih]
      | false =>
        by_cases hb : c = '\x7b'
        · subst hb
          simp [escCharsAux, escTwiceAux, ih]
        · by_cases hb2 : c = '\x7d'
          · subst hb2
            simp [escCharsAux, escTwiceAux, ih]
          · simp [escCharsAux, escTwiceAux, hc, hb, hb2, ih]

/-- Counterexample to claim C3: the brace-escaping pass is not
idempotent — applying `escape_braces_outside_code` to its own output
escapes the already escaped brace again. -/
theorem c3_counterexample :
    escape_braces_outside_code (escape_braces_outside_code (tx "\x7b")) ≠
      escape_braces_outside_code (tx "\x7b") := by decide

/-- Claim C3 as amended: the pass is not idempotent; a second
application prefixes one more backslash to every brace outside code
regions (the character pass composed with itself is the double-escaping
pass), so `{` becomes `\{` and then `\\{`; the brace pass of fix_mdx.py
(whose lookbehind checks for a backtick, not a backslash) double-escapes
the same way. -/
theorem c3_amended :
    (∀ (l : Text) (inline : Bool),
      escCharsAux inline (escCharsAux inline l) = escTwiceAux inline l) ∧
    escape_braces_outside_code (tx "\x7b") = tx "\\\x7b" ∧
    escape_braces_outside_code (escape_braces_outside_code (tx "\x7b")) = tx "\\\\\x7b" ∧
    FixMdx.fixMdxBraces (tx "\\\x7b") = tx "\\\\\x7b" := by
  refine ⟨escCharsAux_twice, by decide, by decide, by decide⟩

end CleanMdx

namespace Jup

open PyStr

theorem escLt_cons_lt_tag (d : Char) (ds : Text)
    (hd : (d.isAlpha || d = '/' || d = '!') = true) :
    escLt ('<' :: d :: ds) = '<' :: escLt (d :: ds) := by
  show (if (d.isAlpha || d = '/' || d = '!') = true then ['<'] else tx "&lt;") ++
      escLt (d :: ds) = _
  rw [if_pos hd]
  rfl

theorem escLt_cons_lt_notag (d : Char) (ds : Text)
    (hd : ¬(d.isAlpha || d = '/' || d = '!') = true) :
    escLt ('<' :: d :: ds) = '&' :: 'l' :: 't' :: ';' :: escLt (d :: ds) := by
  show (if (d.isAlpha || d = '/' || d = '!') = true then ['<'] else tx "&lt;") ++
      escLt (d :: ds) = _
  rw [if_neg hd]
  rfl

theorem escLt_cons_ne {c : Char} (cs : Text) (h : c ≠ '<') :
    escLt (c :: cs) = c :: escLt cs := by
  rw [escLt, if_neg (by simpa using h)]

theorem escLt_nextAlpha (cs : Text) : nextAlpha (escLt cs) = nextAlpha cs := by
  cases cs with
  | nil => rfl
  | cons c cs' =>
    by_cases hc : c = '<'
    · subst hc
      cases cs' with
      | nil => decide
      | cons d ds =>
        by_cases hd : (d.isAlpha || d = '/' || d = '!') = true
        · rw [escLt_cons_lt_tag d ds hd]; rfl
        · rw [escLt_cons_lt_notag d ds hd]; rfl
    · rw [escLt_cons_ne cs' hc]
      rfl

theorem escGtJ_escLt_eq (l : Text) :
    ∀ p q : Option Char, prevAlpha p = prevAlpha q →
      escGtJAux p (escLt l) = anglesSpecJAux q l := by
  induction l with
  | nil => intro p q _; rfl
  | cons c cs ih =>
    intro p q hpq
    by_cases hlt : c = '<'
    · subst hlt
      cases cs with
      | nil => rfl
      | cons d ds =>
        by_cases hd : (d.isAlpha || d = '/' || d = '!') = true
        · rw [escLt_cons_lt_tag d ds hd]
          show '<' :: escGtJAux (some '<') (escLt (d :: ds)) =
            (if (d.isAlpha || d = '/' || d = '!') = true then ['<'] else tx "&lt;") ++
              anglesSpecJAux (some '<') (d :: ds)
          rw [if_pos hd, ih (some '<') (some '<') rfl]
          rfl
        · rw [escLt_cons_lt_notag d ds hd]
          show '&' :: 'l' :: 't' :: ';' :: escGtJAux (some ';') (escLt (d :: ds)) =
            (if (d.isAlpha || d = '/' || d = '!') = true then ['<'] else tx "&lt;") ++
              anglesSpecJAux (some '<') (d :: ds)
          rw [if_neg hd, ih (some ';') (some '<') rfl]
          rfl
    · by_cases hgt : c = '>'
      · subst hgt
        rw [escLt_cons_ne cs (by decide)]
        show (if prevAlpha p then ['>'] else tx "&gt;") ++ escGtJAux (some '>') (escLt cs) =
          (if prevAlpha q then ['>'] else tx "&gt;") ++ anglesSpecJAux (some '>') cs
        rw [hpq, ih (some '>') (some '>') rfl]
      · rw [escLt_cons_ne cs hlt]
        have hL : escGtJAux p (c :: escLt cs) =
            if c = '>' then
              (if prevAlpha p then ['>'] else tx "&gt;") ++ escGtJAux (some '>') (escLt cs)
            else c :: escGtJAux (some c) (escLt cs) := rfl
        have hR : anglesSpecJAux q (c :: cs) =
            if c = '<' then
              (match cs.head? with
               | some d => if d.isAlpha || d = '/' || d = '!' then ['<'] else tx "&lt;"
               | none => tx "&lt;") ++ anglesSpecJAux (some '<') cs
            else if c = '>' then
              (if prevAlpha q then ['>'] else tx "&gt;") ++ anglesSpecJAux (some '>') cs
            else c :: anglesSpecJAux (some c) cs := rfl
        rw [hL, if_neg (by simpa using hgt)]
        rw [hR, if_neg (by simpa using hlt), if_neg (by simpa using hgt)]
        rw [ih (some c) (some c) rfl]

end Jup

namespace FixMdx

open PyStr
open Jup

theorem escGtB_escLt_eq (l : Text) :
    ∀ p q : Option Char, prevAlpha p = prevAlpha q →
      escGtBAux p (escLt l) = anglesSpecFAux q l := by
  induction l with
  | nil => intro p q _; rfl
  | cons c cs ih =>
    intro p q hpq
    by_cases hlt : c = '<'
    · subst hlt
      cases cs with
      | nil => rfl
      | cons d ds =>
        by_cases hd : (d.isAlpha || d = '/' || d = '!') = true
        · rw [escLt_cons_lt_tag d ds hd]
          show '<' :: escGtBAux (some '<') (escLt (d :: ds)) =
            (if (d.isAlpha || d = '/' || d = '!') = true then ['<'] else tx "&lt;") ++
              anglesSpecFAux (some '<') (d :: ds)
          rw [if_pos hd, ih (some '<') (some '<') rfl]
          rfl
        · rw [escLt_cons_lt_notag d ds hd]
          show '&' :: 'l' :: 't' :: ';' :: escGtBAux (some ';') (escLt (d :: ds)) =
            (if (d.isAlpha || d = '/' || d = '!') = true then ['<'] else tx "&lt;") ++
              anglesSpecFAux (some '<') (d :: ds)
          rw [if_neg hd, ih (some ';') (some '<') rfl]
          rfl
    · by_cases hgt : c = '>'
      · subst hgt
        rw [escLt_cons_ne cs (by decide)]
        show (if prevAlpha p || nextAlpha (escLt cs) then ['>'] else tx "&gt;") ++
            escGtBAux (some '>') (escLt cs) =
          (if prevAlpha q || nextAlpha cs then ['>'] else tx "&gt;") ++
            anglesSpecFAux (some '>') cs
        rw [hpq, escLt_nextAlpha, ih (some '>') (some '>') rfl]
      · rw [escLt_cons_ne cs hlt]
        have hL : escGtBAux p (c :: escLt cs) =
            if c = '>' then
              (if prevAlpha p || nextAlpha (escLt cs) then ['>'] else tx "&gt;") ++
                escGtBAux (some '>') (escLt cs)
            else c :: escGtBAux (some c) (escLt cs) := rfl
        have hR : anglesSpecFAux q (c :: cs) =
            if c = '<' then
              (match cs.head? with
               | some d => if d.isAlpha || d = '/' || d = '!' then ['<'] else tx "&lt;"
               | none => tx "&lt;") ++ anglesSpecFAux (some '<') cs
            else if c = '>' then
              (if prevAlpha q || nextAlpha cs then ['>'] else tx "&gt;") ++
                anglesSpecFAux (some '>') cs
            else c :: anglesSpecFAux (some c) cs := rfl
        rw [hL, if_neg (by simpa using hgt)]
        rw [hR, if_neg (by simpa using hlt), if_neg (by simpa using hgt)]
        rw [ih (some c) (some c) rfl]

end FixMdx

/-- Counterexample to claim C6: in `_fix_mdx_syntax` the character `>`
in `1>a` is immediately followed by a letter, so by the claim it should
stay unchanged; the code replaces it, because the pass only checks the
preceding character. -/
theorem c6_counterexample :
    Jup.fix_mdx_syntax (tx "1>a") = tx "1&gt;a" ∧ tx "1&gt;a" ≠ tx "1>a" := by
  constructor
  · simp [Jup.fix_mdx_syntax, Jup.urlAngleSub, Jup.escLt, Jup.escGtJ, Jup.escGtJAux,
      Jup.bareUrlAux, Jup.schemeSplit, PyStr.startsB, tx, Jup.prevAlpha, Jup.nextAlpha]
  · decide

/-- Claim C6 as amended: the `<` rule is as stated in both passes; in
`jupyter_to_docusaurus._fix_mdx_syntax` a `>` is replaced exactly when
the preceding character is not a letter (the following character plays
no role, so `1>a` becomes `1&gt;a`), while the both-neighbour rule of
the claim holds only for `fix_mdx.fix_mdx_file`, whose pass leaves
`1>a` unchanged. -/
theorem c6_amended :
    (∀ l : Text, Jup.escGtJ (Jup.escLt l) = Jup.anglesSpecJAux none l) ∧
    (∀ l : Text, FixMdx.fixMdxAngles l = FixMdx.anglesSpecFAux none l) ∧
    Jup.fix_mdx_syntax (tx "1>a") = tx "1&gt;a" ∧
    FixMdx.fixMdxAngles (tx "1>a") = tx "1>a" := by
  refine ⟨fun l => Jup.escGtJ_escLt_eq l none none rfl,
    fun l => FixMdx.escGtB_escLt_eq l none none rfl, ?_, by decide⟩
  simp [Jup.fix_mdx_syntax, Jup.urlAngleSub, Jup.escLt, Jup.escGtJ, Jup.escGtJAux,
    Jup.bareUrlAux, Jup.schemeSplit, PyStr.startsB, tx, Jup.prevAlpha, Jup.nextAlpha]

namespace CleanMdx

theorem braceSafeAux_escChars (l : Text) :
    ∀ (inline : Bool) (prev : Option Char),
      braceSafeAux inline prev (escCharsAux inline l) = true := by
  induction l with
  | nil => intro inline prev; rfl
  | cons c cs ih =>
    intro inline prev
    by_cases hc : c = '\x60'
    · subst hc
      show braceSafeAux inline prev ('\x60' :: escCharsAux (!inline) cs) = true
      show braceSafeAux (!inline) (some '\x60') (escCharsAux (!inline) cs) = true
      exact ih (!inline) (some '\x60')
    · cases inline with
      | true =>
        have he : escCharsAux true (c :: cs) = c :: escCharsAux true cs := by
          simp [escCharsAux, hc]
        rw [he]
        have h1 : braceSafeAux true prev (c :: escCharsAux true cs) =
            braceSafeAux true (some c) (escCharsAux true cs) := by
          simp [braceSafeAux, hc]
        rw [h1]
        exact ih true (some c)
      | false =>
        by_cases hb : c = '\x7b'
        · subst hb
          have he : escCharsAux false ('\x7b' :: cs) = '\\' :: '\x7b' :: escCharsAux false cs := by
            simp [escCharsAux]
          rw [he]
          have h1 : braceSafeAux false prev ('\\' :: '\x7b' :: escCharsAux false cs) =
              braceSafeAux false (some '\\') ('\x7b' :: escCharsAux false cs) := by
            simp [braceSafeAux]
          rw [h1]
          have h2 : braceSafeAux false (some '\\') ('\x7b' :: escCharsAux false cs) =
              (decide ((some '\\' : Option Char) = some '\\') &&
                braceSafeAux false (some '\x7b') (escCharsAux false cs)) := by
            simp [braceSafeAux]
          rw [h2]
          simp [ih false (some '\x7b')]
        · by_cases hb2 : c = '\x7d'
          · subst hb2
            have he : escCharsAux false ('\x7d' :: cs) = '\\' :: '\x7d' :: escCharsAux false cs := by
              simp [escCharsAux]
            rw [he]
            have h1 : braceSafeAux false prev ('\\' :: '\x7d' :: escCharsAux false cs) =
                braceSafeAux false (some '\\') ('\x7d' :: escCharsAux false cs) := by
              simp [braceSafeAux]
            rw [h1]
            have h2 : braceSafeAux false (some '\\') ('\x7d' :: escCharsAux false cs) =
                (decide ((some '\\' : Option Char) = some '\\') &&
                  braceSafeAux false (some '\x7d') (escCharsAux false cs)) := by
              simp [braceSafeAux]
            rw [h2]
            simp [ih false (some '\x7d')]
          · have he : escCharsAux false (c :: cs) = c :: escCharsAux false cs := by
              simp [escCharsAux, hc, hb, hb2]
            rw [he]
            have h1 : braceSafeAux false prev (c :: escCharsAux false cs) =
                braceSafeAux false (some c) (escCharsAux false cs) := by
              simp [braceSafeAux, hc, hb, hb2]
            rw [h1]
            exact ih false (some c)

theorem escLinesAux_cons (b i : Bool) (l : Text) (ls : List Text) :
    escLinesAux b i (l :: ls) =
      if isMarkerL l then l :: escLinesAux (!b) i ls
      else if b then l :: escLinesAux b i ls
      else escCharsAux i l :: escLinesAux b (xor i (oddTicks l)) ls := rfl

theorem escLinesAux_length (ls : List Text) :
    ∀ b i, (escLinesAux b i ls).length = ls.length := by
  induction ls with
  | nil => intro b i; rfl
  | cons l ls' ih =>
    intro b i
    rw [escLinesAux_cons]
    split_ifs <;> simp [ih]

theorem proseB_cons_succ (b : Bool) (l : Text) (ls : List Text) (j : Nat) :
    proseB b (l :: ls) (j + 1) = proseB (if isMarkerL l then !b else b) ls j := rfl

theorem proseB_cons_zero (b : Bool) (l : Text) (ls : List Text) :
    proseB b (l :: ls) 0 = (!isMarkerL l && !b) := rfl

theorem proseB_lt {b : Bool} {ls : List Text} {i : Nat} (h : proseB b ls i = true) :
    i < ls.length := by
  by_contra hge
  push_neg at hge
  rw [proseB] at h
  rw [List.drop_eq_nil_of_le hge] at h
  simp at h

theorem escLines_spec (ls : List Text) :
    ∀ b : Bool,
      (∀ i l, proseB b ls i = true → (ls.drop i).head? = some l → oddTicks l = false) →
      ∀ i : Nat,
        (proseB b ls i = false →
          ((escLinesAux b false ls).drop i).head? = (ls.drop i).head?) ∧
        (proseB b ls i = true → ∀ ol,
          ((escLinesAux b false ls).drop i).head? = some ol → braceSafe ol = true) := by
  induction ls with
  | nil =>
    intro b H i
    constructor
    · intro _; rfl
    · intro hp
      rw [proseB, List.drop_nil] at hp
      simp at hp
  | cons l ls' ih =>
    intro b H i
    by_cases hm : isMarkerL l = true
    · have he : escLinesAux b false (l :: ls') = l :: escLinesAux (!b) false ls' := by
        rw [escLinesAux_cons, if_pos hm]
      cases i with
      | zero =>
        constructor
        · intro _; rw [he]; rfl
        · intro hp
          rw [proseB_cons_zero, hm] at hp
          simp at hp
      | succ j =>
        have H' : ∀ i l₂, proseB (!b) ls' i = true → (ls'.drop i).head? = some l₂ →
            oddTicks l₂ = false := by
          intro i l₂ hp hh
          refine H (i + 1) l₂ ?_ hh
          rw [proseB_cons_succ, if_pos hm]
          exact hp
        have := ih (!b) H' j
        constructor
        · intro hp
          rw [proseB_cons_succ, if_pos hm] at hp
          rw [he]
          exact this.1 hp
        · intro hp
          rw [proseB_cons_succ, if_pos hm] at hp
          rw [he]
          exact this.2 hp
    · cases b with
      | true =>
        have he : escLinesAux true false (l :: ls') = l :: escLinesAux true false ls' := by
          rw [escLinesAux_cons, if_neg (by simpa using hm)]
          rfl
        cases i with
        | zero =>
          constructor
          · intro _; rw [he]; rfl
          · intro hp
            rw [proseB_cons_zero] at hp
            simp at hp
        | succ j =>
          have H' : ∀ i l₂, proseB true ls' i = true → (ls'.drop i).head? = some l₂ →
              oddTicks l₂ = false := by
            intro i l₂ hp hh
            refine H (i + 1) l₂ ?_ hh
            rw [proseB_cons_succ, if_neg (by simpa using hm)]
            exact hp
          have := ih true H' j
          constructor
          · intro hp
            rw [proseB_cons_succ, if_neg (by simpa using hm)] at hp
            rw [he]
            exact this.1 hp
          · intro hp
            rw [proseB_cons_succ, if_neg (by simpa using hm)] at hp
            rw [he]
            exact this.2 hp
      | false =>
        have hm' : isMarkerL l = false := by simpa using hm
        have hodd : oddTicks l = false := by
          refine H 0 l ?_ rfl
          rw [proseB_cons_zero, hm']
          rfl
        have he : escLinesAux false false (l :: ls') =
            escCharsAux false l :: escLinesAux false false ls' := by
          rw [escLinesAux_cons, if_neg (by simpa using hm)]
          rw [if_neg (by simp)]
          simp [hodd]
        cases i with
        | zero =>
          constructor
          · intro hp
            rw [proseB_cons_zero, hm'] at hp
            simp at hp
          · intro _ ol hol
            rw [he] at hol
            simp only [List.drop_zero, List.head?_cons, Option.some.injEq] at hol
            rw [← hol]
            exact braceSafeAux_escChars l false none
        | succ j =>
          have H' : ∀ i l₂, proseB false ls' i = true → (ls'.drop i).head? = some l₂ →
              oddTicks l₂ = false := by
            intro i l₂ hp hh
            refine H (i + 1) l₂ ?_ hh
            rw [proseB_cons_succ, if_neg (by simpa using hm)]
            exact hp
          have := ih false H' j
          constructor
          · intro hp
            rw [proseB_cons_succ, if_neg (by simpa using hm)] at hp
            rw [he]
            exact this.1 hp
          · intro hp
            rw [proseB_cons_succ, if_neg (by simpa using hm)] at hp
            rw [he]
            exact this.2 hp

end CleanMdx

namespace CleanMdx
open PyStr

/-- Counterexample to claim C2: the first line holds an unmatched
backtick, so the persistent `in_inline_code` flag is still set on the
second line; the brace there sits outside every fence and outside every
single-line inline span, yet the sanitizer leaves it unescaped (the
whole text passes through unchanged), while the claim requires it to be
escaped.  The fenced block (line 3) does contain a literal brace pair,
so the claim's premise holds. -/
theorem c2_counterexample :
    escape_braces_outside_code (tx "a\x60a\n\x7b\n\x60\x60\x60\n\x7b\x7d\n\x60\x60\x60") =
      tx "a\x60a\n\x7b\n\x60\x60\x60\n\x7b\x7d\n\x60\x60\x60" ∧
    (splitNl (tx "a\x60a\n\x7b\n\x60\x60\x60\n\x7b\x7d\n\x60\x60\x60"))[1]? = some (tx "\x7b") ∧
    proseB false (splitNl (tx "a\x60a\n\x7b\n\x60\x60\x60\n\x7b\x7d\n\x60\x60\x60")) 1 = true ∧
    occB (tx "\x60") (tx "\x7b") = false ∧
    (splitNl (tx "a\x60a\n\x7b\n\x60\x60\x60\n\x7b\x7d\n\x60\x60\x60"))[3]? = some (tx "\x7b\x7d") ∧
    proseB false (splitNl (tx "a\x60a\n\x7b\n\x60\x60\x60\n\x7b\x7d\n\x60\x60\x60")) 3 = false := by
  refine ⟨by decide, by decide, by decide, by decide, by decide, by decide⟩

/-- Claim C2 as amended: provided every prose line contains an even
number of backticks (so the line-crossing `in_inline_code` state is off
at each line start), the sanitizer keeps every fence-marker and
fenced-interior line verbatim — in particular braces inside fences stay
unescaped — and every brace outside inline code on a prose line carries
a backslash prefix in the output. -/
theorem c2_amended (t : Text)
    (H : ∀ i l, proseAt (splitNl t) i → ((splitNl t).drop i).head? = some l →
      oddTicks l = false) :
    escape_braces_outside_code t = joinNl (escLinesAux false false (splitNl t)) ∧
    (escLinesAux false false (splitNl t)).length = (splitNl t).length ∧
    (∀ i, ¬ proseAt (splitNl t) i →
      ((escLinesAux false false (splitNl t)).drop i).head? = ((splitNl t).drop i).head?) ∧
    (∀ i, proseAt (splitNl t) i → ∀ ol,
      ((escLinesAux false false (splitNl t)).drop i).head? = some ol →
        braceSafe ol = true) := by
  refine ⟨rfl, escLinesAux_length _ _ _, ?_, ?_⟩
  · intro i hnp
    exact (escLines_spec (splitNl t) false H i).1 (by simpa [proseAt] using hnp)
  · intro i hp
    exact (escLines_spec (splitNl t) false H i).2 hp

/-- Witness for C2 at a concrete text `a{b` / fence / `{` / fence: the
fenced interior line is preserved verbatim and the prose line's brace is
escaped. -/
theorem c2_witness :
    ((escLinesAux false false (splitNl (tx "a\x7bb\n\x60\x60\x60\n\x7b\n\x60\x60\x60"))).drop 2).head? =
      ((splitNl (tx "a\x7bb\n\x60\x60\x60\n\x7b\n\x60\x60\x60")).drop 2).head? ∧
    braceSafe (escCharsAux false (tx "a\x7bb")) = true := by
  have H : ∀ i l, proseAt (splitNl (tx "a\x7bb\n\x60\x60\x60\n\x7b\n\x60\x60\x60")) i →
      ((splitNl (tx "a\x7bb\n\x60\x60\x60\n\x7b\n\x60\x60\x60")).drop i).head? = some l →
      oddTicks l = false := by
    intro i l hp hh
    have hlt := proseB_lt hp
    have h4 : (splitNl (tx "a\x7bb\n\x60\x60\x60\n\x7b\n\x60\x60\x60")).length = 4 := by decide
    rw [h4] at hlt
    interval_cases i
    · have he : ((splitNl (tx "a\x7bb\n\x60\x60\x60\n\x7b\n\x60\x60\x60")).drop 0).head? =
          some (tx "a\x7bb") := by decide
      rw [he] at hh
      injection hh with h
      rw [← h]
      decide
    · exact absurd hp (by decide)
    · exact absurd hp (by decide)
    · exact absurd hp (by decide)
  constructor
  · exact (c2_amended (tx "a\x7bb\n\x60\x60\x60\n\x7b\n\x60\x60\x60") H).2.2.1 2 (by decide)
  · have := (c2_amended (tx "a\x7bb\n\x60\x60\x60\n\x7b\n\x60\x60\x60") H).2.2.2 0 (by decide)
      (escCharsAux false (tx "a\x7bb")) (by decide)
    exact this

end CleanMdx


namespace FixIssues

open PyStr

theorem startsB_append_self (p v : Text) : startsB p (p ++ v) = true :=
  (startsB_iff p (p ++ v)).mpr ⟨v, rfl⟩

theorem startsB_split {p v : Text} (h : startsB p v = true) :
    v = p ++ v.drop p.length := by
  rcases (startsB_iff p v).mp h with ⟨t, rfl⟩
  simp

theorem occursAt_cons_succ (pat : Text) (c : Char) (v : Text) (p : Nat) :
    occursAt pat (c :: v) (p + 1) = occursAt pat v p := rfl

theorem occursAt_of_ge {q : Char} {qs v : Text} {p : Nat} (h : v.length ≤ p) :
    occursAt (q :: qs) v p = false := by
  unfold occursAt
  rw [List.drop_eq_nil_of_le h]
  rfl

theorem occursAt_lt_of_eq_true {q : Char} {qs v : Text} {p : Nat}
    (h : occursAt (q :: qs) v p = true) : p < v.length := by
  by_contra hc
  push_neg at hc
  rw [occursAt_of_ge hc] at h
  exact absurd h (by simp)

theorem occursAt_append_right (pat x y : Text) (p : Nat) :
    occursAt pat (x ++ y) (x.length + p) = occursAt pat y p := by
  unfold occursAt
  congr 1
  induction x with
  | nil => simp
  | cons c cs ih =>
    have h : (c :: cs).length + p = cs.length + p + 1 := by
      simp only [List.length_cons]
      omega
    rw [h]
    show (cs ++ y).drop (cs.length + p) = y.drop p
    exact ih

theorem countOcc_cons (pat : Text) (c : Char) (v : Text) :
    countOcc pat (c :: v) =
      (if startsB pat (c :: v) = true then 1 else 0) + countOcc pat v := by
  unfold countOcc
  have h1 : (c :: v).length + 1 = v.length + 1 + 1 := by simp
  rw [h1, List.range_succ_eq_map, List.filter_cons]
  have h2 : ((List.range (v.length + 1)).map Nat.succ).filter
        (fun p => occursAt pat (c :: v) p) =
      ((List.range (v.length + 1)).filter (fun p => occursAt pat v p)).map Nat.succ := by
    rw [List.filter_map]
    congr 1
  rw [h2]
  by_cases hs : startsB pat (c :: v) = true
  · have h0 : occursAt pat (c :: v) 0 = true := hs
    simp [h0, hs] <;> omega
  · have h0 : occursAt pat (c :: v) 0 = false := by
      cases hx : occursAt pat (c :: v) 0
      · rfl
      · exact absurd hx hs
    simp [h0, hs] <;> omega

theorem countOcc_pos_of_occursAt {q : Char} {qs v : Text} {p : Nat}
    (h : occursAt (q :: qs) v p = true) : 0 < countOcc (q :: qs) v := by
  have hp : p < v.length := occursAt_lt_of_eq_true h
  have hmem : p ∈ (List.range (v.length + 1)).filter
      (fun x => occursAt (q :: qs) v x) := by
    rw [List.mem_filter]
    exact ⟨List.mem_range.mpr (by omega), h⟩
  unfold countOcc
  exact List.length_pos.mpr (List.ne_nil_of_mem hmem)

theorem occursAt_false_of_countOcc_zero {q : Char} {qs v : Text}
    (h : countOcc (q :: qs) v = 0) (p : Nat) : occursAt (q :: qs) v p = false := by
  cases hx : occursAt (q :: qs) v p
  · rfl
  · exfalso
    have := countOcc_pos_of_occursAt hx
    omega

theorem replaceAllNe_no_occ {q : Char} {qs rep : Text} :
    ∀ v : Text, (∀ p, occursAt (q :: qs) v p = false) → replaceAllNe q qs rep v = v
  | [], _ => by rw [replaceAllNe]
  | c :: cs, h => by
    rw [replaceAllNe]
    have h0 : startsB (q :: qs) (c :: cs) = false := h 0
    rw [if_neg (by simp [h0])]
    congr 1
    exact replaceAllNe_no_occ cs (fun p => h (p + 1))

theorem replaceAllNe_splice {q : Char} {qs rep : Text} :
    ∀ a b : Text, countOcc (q :: qs) (a ++ (q :: qs) ++ b) = 1 →
      replaceAllNe q qs rep (a ++ (q :: qs) ++ b) = a ++ rep ++ b
  | [], b, h => by
    have h' : countOcc (q :: qs) (q :: (qs ++ b)) = 1 := h
    have hfront : startsB (q :: qs) (q :: (qs ++ b)) = true := startsB_append_self (q :: qs) b
    have hc := countOcc_cons (q :: qs) q (qs ++ b)
    rw [h', if_pos hfront] at hc
    have hz : countOcc (q :: qs) (qs ++ b) = 0 := by omega
    show replaceAllNe q qs rep (q :: (qs ++ b)) = rep ++ b
    rw [replaceAllNe, if_pos hfront, List.drop_left qs b,
      replaceAllNe_no_occ b (fun p => by
        have hh := occursAt_false_of_countOcc_zero hz (qs.length + p)
        rwa [occursAt_append_right] at hh)]
  | c :: a', b, h => by
    have h' : countOcc (q :: qs) (c :: (a' ++ (q :: qs) ++ b)) = 1 := h
    have hocc : occursAt (q :: qs) (a' ++ (q :: qs) ++ b) a'.length = true := by
      unfold occursAt
      rw [List.append_assoc, List.drop_left]
      exact startsB_append_self _ _
    have hfront : startsB (q :: qs) (c :: (a' ++ (q :: qs) ++ b)) = false := by
      cases hx : startsB (q :: qs) (c :: (a' ++ (q :: qs) ++ b))
      · rfl
      · exfalso
        have hcons := countOcc_cons (q :: qs) c (a' ++ (q :: qs) ++ b)
        rw [h', if_pos hx] at hcons
        have := countOcc_pos_of_occursAt hocc
        omega
    have htail : countOcc (q :: qs) (a' ++ (q :: qs) ++ b) = 1 := by
      have hcons := countOcc_cons (q :: qs) c (a' ++ (q :: qs) ++ b)
      rw [h', if_neg (by
        have hf : startsB (q :: qs) (c :: (a' ++ q :: (qs ++ b))) = false := by
          simpa using hfront
        simp [hf])] at hcons
      omega
    show replaceAllNe q qs rep (c :: (a' ++ (q :: qs) ++ b)) = c :: (a' ++ rep ++ b)
    rw [replaceAllNe, if_neg (by
      have hf : startsB (q :: qs) (c :: (a' ++ q :: (qs ++ b))) = false := by
        simpa using hfront
      simp [hf]), replaceAllNe_splice a' b htail]

theorem replaceAll_splice {pat rep : Text} (hne : pat ≠ []) (a b : Text)
    (h : countOcc pat (a ++ pat ++ b) = 1) :
    replaceAll pat rep (a ++ pat ++ b) = a ++ rep ++ b := by
  cases pat with
  | nil => exact absurd rfl hne
  | cons q qs => exact replaceAllNe_splice a b h

end FixIssues

namespace FixIssues

open PyStr

theorem digitChar_ne_tick (m : Nat) : Nat.digitChar m ≠ '\x60' := by
  by_cases h16 : m < 16
  · interval_cases m <;> decide
  · have h0 : m ≠ 0 := by omega
    have h1 : m ≠ 1 := by omega
    have h2 : m ≠ 2 := by omega
    have h3 : m ≠ 3 := by omega
    have h4 : m ≠ 4 := by omega
    have h5 : m ≠ 5 := by omega
    have h6 : m ≠ 6 := by omega
    have h7 : m ≠ 7 := by omega
    have h8 : m ≠ 8 := by omega
    have h9 : m ≠ 9 := by omega
    have h10 : m ≠ 10 := by omega
    have h11 : m ≠ 11 := by omega
    have h12 : m ≠ 12 := by omega
    have h13 : m ≠ 13 := by omega
    have h14 : m ≠ 14 := by omega
    have h15 : m ≠ 15 := by omega
    simp [Nat.digitChar, h0, h1, h2, h3, h4, h5, h6, h7, h8, h9, h10,
      h11, h12, h13, h14, h15]

theorem toDigitsCore_mem :
    ∀ (fuel n : Nat) (ds : List Char) (c : Char),
      c ∈ Nat.toDigitsCore 10 fuel n ds → c ∈ ds ∨ ∃ m, c = Nat.digitChar m := by
  intro fuel
  induction fuel with
  | zero =>
    intro n ds c h
    exact Or.inl h
  | succ f ih =>
    intro n ds c h
    simp only [Nat.toDigitsCore] at h
    by_cases hn : n / 10 = 0
    · rw [if_pos hn] at h
      rcases List.mem_cons.mp h with h1 | h1
      · exact Or.inr ⟨n % 10, h1⟩
      · exact Or.inl h1
    · rw [if_neg hn] at h
      rcases ih (n / 10) (Nat.digitChar (n % 10) :: ds) c h with h1 | h1
      · rcases List.mem_cons.mp h1 with h2 | h2
        · exact Or.inr ⟨n % 10, h2⟩
        · exact Or.inl h2
      · exact Or.inr h1

theorem repr_mem_digitChar {k : Nat} {c : Char} (h : c ∈ (Nat.repr k).data) :
    ∃ m, c = Nat.digitChar m := by
  have hd : (Nat.repr k).data = Nat.toDigitsCore 10 (k + 1) k [] := rfl
  rw [hd] at h
  rcases toDigitsCore_mem (k + 1) k [] c h with h' | h'
  · exact absurd h' (List.not_mem_nil c)
  · exact h'

theorem ph_no_tick {i : Nat} {c : Char} (h : c ∈ ph i) : c ≠ '\x60' := by
  unfold ph at h
  rcases List.mem_append.mp h with h1 | h1
  · rcases List.mem_append.mp h1 with h2 | h2
    · have hm : ∀ x ∈ marker, x ≠ '\x60' := by decide
      exact hm c h2
    · rcases repr_mem_digitChar h2 with ⟨m, rfl⟩
      exact digitChar_ne_tick m
  · have hm : ∀ x ∈ tx "__", x ≠ '\x60' := by decide
    exact hm c h1

theorem ph_ne_nil (i : Nat) : ph i ≠ [] := by
  intro h
  have hlen := congrArg List.length h
  simp only [ph, List.length_append, List.length_nil] at hlen
  have h13 : marker.length = 13 := by decide
  omega

theorem flattenPh_append (x y : List Tok) :
    flattenPh (x ++ y) = flattenPh x ++ flattenPh y := by
  induction x with
  | nil => rfl
  | cons t ts ih =>
    cases t with
    | ch c => simp [flattenPh, ih]
    | phT i => simp [flattenPh, ih]

theorem flattenPh_eq_nil {ts : List Tok} (h : flattenPh ts = []) : ts = [] := by
  cases ts with
  | nil => rfl
  | cons t ts =>
    cases t with
    | ch c => simp [flattenPh] at h
    | phT i =>
      exfalso
      have h' : ph i ++ flattenPh ts = [] := h
      rcases List.append_eq_nil.mp h' with ⟨h1, _⟩
      exact ph_ne_nil i h1

theorem flattenPh_map_ch (l : Text) : flattenPh (l.map Tok.ch) = l := by
  induction l with
  | nil => rfl
  | cons c cs ih => simp [flattenPh, ih]

theorem expandToks_zero (bs : List Text) (ts : List Tok) : expandToks bs 0 ts = ts := by
  induction ts with
  | nil => rfl
  | cons t ts ih =>
    cases t with
    | ch c => simp [expandToks, ih]
    | phT i => simp [expandToks, ih]

theorem expandToks_append (bs : List Text) (k : Nat) (x y : List Tok) :
    expandToks bs k (x ++ y) = expandToks bs k x ++ expandToks bs k y := by
  induction x with
  | nil => rfl
  | cons t ts ih =>
    cases t with
    | ch c => simp [expandToks, ih]
    | phT i =>
      by_cases hik : i < k
      · simp [expandToks, hik, ih]
      · simp [expandToks, hik, ih]

theorem expandToks_map_ch (bs : List Text) (k : Nat) (l : Text) :
    expandToks bs k (l.map Tok.ch) = l.map Tok.ch := by
  induction l with
  | nil => rfl
  | cons c cs ih => simp [expandToks, ih]

theorem count_phT_map_ch (l : Text) (j : Nat) :
    (l.map Tok.ch).count (Tok.phT j) = 0 := by
  induction l with
  | nil => rfl
  | cons c cs ih => simp [List.count_cons, ih]

theorem expandToks_count_ge {bs : List Text} {k j : Nat} (h : k ≤ j) (ts : List Tok) :
    (expandToks bs k ts).count (Tok.phT j) = ts.count (Tok.phT j) := by
  induction ts with
  | nil => rfl
  | cons t ts ih =>
    cases t with
    | ch c => simp [expandToks, List.count_cons, ih]
    | phT i =>
      by_cases hik : i < k
      · have hij : (Tok.phT i == Tok.phT j) = false := by
          have : i ≠ j := by omega
          simpa using this
        simp [expandToks, hik, List.count_append, List.count_cons, count_phT_map_ch, ih, hij]
      · simp [expandToks, hik, List.count_cons, ih]

theorem not_phT_mem_expandToks {bs : List Text} {k j : Nat} (h : j < k) (ts : List Tok) :
    Tok.phT j ∉ expandToks bs k ts := by
  induction ts with
  | nil => simp [expandToks]
  | cons t ts ih =>
    cases t with
    | ch c =>
      simp only [expandToks, List.mem_cons]
      rintro (h1 | h1)
      · exact absurd h1 (by simp)
      · exact ih h1
    | phT i =>
      by_cases hik : i < k
      · simp only [expandToks, if_pos hik, List.mem_append]
        rintro (h1 | h1)
        · rcases List.mem_map.mp h1 with ⟨a, _, ha⟩
          exact absurd ha (by simp)
        · exact ih h1
      · simp only [expandToks, if_neg hik, List.mem_cons]
        rintro (h1 | h1)
        · have : j = i := by
            cases h1
            rfl
          omega
        · exact ih h1

theorem expandToks_of_no_phT_lt {bs : List Text} {k : Nat} :
    ∀ {ts : List Tok}, (∀ j, j < k → Tok.phT j ∉ ts) → expandToks bs k ts = ts := by
  intro ts
  induction ts with
  | nil => intro _; rfl
  | cons t ts ih =>
    intro h
    cases t with
    | ch c =>
      simp only [expandToks]
      rw [ih (fun j hj hmem => h j hj (List.mem_cons_of_mem _ hmem))]
    | phT i =>
      by_cases hik : i < k
      · exact absurd (List.mem_cons_self _ _) (h i hik)
      · simp only [expandToks, if_neg hik]
        rw [ih (fun j hj hmem => h j hj (List.mem_cons_of_mem _ hmem))]

theorem expandToks_succ (bs : List Text) (k : Nat) (ts : List Tok) :
    expandToks bs (k + 1) (expandToks bs k ts) = expandToks bs (k + 1) ts := by
  induction ts with
  | nil => rfl
  | cons t ts ih =>
    cases t with
    | ch c => simp [expandToks, ih]
    | phT i =>
      by_cases hik : i < k
      · have hik1 : i < k + 1 := by omega
        simp only [expandToks, if_pos hik, if_pos hik1]
        rw [expandToks_append, expandToks_map_ch, ih]
      · by_cases hik1 : i < k + 1
        · simp only [expandToks, if_neg hik, if_pos hik1]
          rw [ih]
        · simp only [expandToks, if_neg hik, if_neg hik1]
          rw [ih]

theorem flattenPh_expand_full {bs : List Text} {m : Nat} :
    ∀ {ts : List Tok}, (∀ j, Tok.phT j ∈ ts → j < m) →
      flattenPh (expandToks bs m ts) = flattenBlocks bs ts := by
  intro ts
  induction ts with
  | nil => intro _; rfl
  | cons t ts ih =>
    intro h
    cases t with
    | ch c =>
      simp only [expandToks, flattenPh, flattenBlocks]
      rw [ih (fun j hj => h j (List.mem_cons_of_mem _ hj))]
    | phT i =>
      have him : i < m := h i (List.mem_cons_self _ _)
      simp only [expandToks, if_pos him, flattenBlocks]
      rw [flattenPh_append, flattenPh_map_ch,
        ih (fun j hj => h j (List.mem_cons_of_mem _ hj))]

theorem count_one_split {ts : List Tok} {a : Tok} (h : ts.count a = 1) :
    ∃ A B, ts = A ++ a :: B ∧ a ∉ A ∧ a ∉ B := by
  have hmem : a ∈ ts := List.count_pos_iff.mp (by omega)
  rcases List.append_of_mem hmem with ⟨A, B, rfl⟩
  have hc := h
  rw [List.count_append, List.count_cons_self] at hc
  refine ⟨A, B, rfl, ?_, ?_⟩
  · exact List.not_mem_of_count_eq_zero (by omega)
  · exact List.not_mem_of_count_eq_zero (by omega)

end FixIssues

namespace FixIssues

open PyStr

theorem findTicksIdx_startsB :
    ∀ {u : Text} {k : Nat}, findTicksIdx u = some k → startsB ticks3 (u.drop k) = true := by
  intro u
  induction u with
  | nil =>
    intro k h
    rw [findTicksIdx] at h
    exact Option.noConfusion h
  | cons c cs ih =>
    intro k h
    rw [findTicksIdx] at h
    by_cases hs : startsB ticks3 (c :: cs) = true
    · rw [if_pos hs] at h
      injection h with h'
      subst h'
      exact hs
    · rw [if_neg hs] at h
      cases hf : findTicksIdx cs with
      | none =>
        rw [hf] at h
        simp at h
      | some j =>
        rw [hf] at h
        simp at h
        subst h
        show startsB ticks3 (cs.drop j) = true
        exact ih hf

theorem findTicksIdx_split {u : Text} {k : Nat} (h : findTicksIdx u = some k) :
    u = u.take k ++ ticks3 ++ u.drop (k + 3) := by
  have h2 := startsB_split (findTicksIdx_startsB h)
  have h3 : ticks3.length = 3 := by decide
  rw [h3, List.drop_drop] at h2
  calc u = u.take k ++ u.drop k := (List.take_append_drop k u).symm
    _ = u.take k ++ (ticks3 ++ u.drop (k + 3)) := by rw [← h2]
    _ = u.take k ++ ticks3 ++ u.drop (k + 3) := by simp [List.append_assoc]

theorem fenced_sim : ∀ (t : Text) (n : Nat), (fencedAux n t).1 = flattenPh (fencedToks n t)
  | [], n => by
    rw [fencedAux, fencedToks]
    rfl
  | c :: cs, n => by
    rw [fencedAux, fencedToks]
    by_cases hs : startsB ticks3 (c :: cs) = true
    · rw [if_pos hs, if_pos hs]
      cases hf : findTicksIdx (cs.drop 2) with
      | some k =>
        simp only [flattenPh]
        rw [fenced_sim ((cs.drop 2).drop (k + 3)) (n + 1)]
      | none =>
        simp only [flattenPh]
        rw [fenced_sim cs n]
    · rw [if_neg hs, if_neg hs]
      simp only [flattenPh]
      rw [fenced_sim cs n]
termination_by t _ => t.length
decreasing_by
  all_goals simp [List.length_drop]
  all_goals omega

theorem fencedToks_count : ∀ (t : Text) (n k : Nat),
    (fencedToks n t).count (Tok.phT k) =
      if n ≤ k ∧ k < n + (fencedAux n t).2.length then 1 else 0
  | [], n, k => by
    rw [fencedToks, fencedAux]
    simp only [List.count_nil, List.length_nil, Nat.add_zero]
    by_cases h : n ≤ k ∧ k < n
    · exact absurd h (by omega)
    · rw [if_neg h]
  | c :: cs, n, k => by
    rw [fencedToks, fencedAux]
    by_cases hs : startsB ticks3 (c :: cs) = true
    · rw [if_pos hs, if_pos hs]
      cases hf : findTicksIdx (cs.drop 2) with
      | some j =>
        simp only [List.length_cons]
        by_cases hk : n = k
        · subst hk
          rw [List.count_cons_self,
            fencedToks_count ((cs.drop 2).drop (j + 3)) (n + 1) n]
          rw [if_neg (by rintro ⟨h1, _⟩; omega),
            if_pos (by refine ⟨?_, ?_⟩ <;> omega)]
        · rw [List.count_cons_of_ne (by simpa using Ne.symm hk),
            fencedToks_count ((cs.drop 2).drop (j + 3)) (n + 1) k]
          by_cases hA : n + 1 ≤ k ∧
              k < n + 1 + (fencedAux (n + 1) ((cs.drop 2).drop (j + 3))).2.length
          · rw [if_pos hA, if_pos (by refine ⟨?_, ?_⟩ <;> omega)]
          · rw [if_neg hA, if_neg (by
              rintro ⟨h1, h2⟩
              exact hA ⟨by omega, by omega⟩)]
      | none =>
        rw [List.count_cons_of_ne (by simp), fencedToks_count cs n k]
    · rw [if_neg hs, if_neg hs]
      rw [List.count_cons_of_ne (by simp), fencedToks_count cs n k]
termination_by t _ _ => t.length
decreasing_by
  all_goals simp [List.length_drop]
  all_goals omega

theorem flattenBlocks_fencedToks : ∀ (t : Text) (n : Nat) (bs : List Text),
    (∀ j, j < (fencedAux n t).2.length → bs.getD (n + j) [] = (fencedAux n t).2.getD j []) →
    flattenBlocks bs (fencedToks n t) = t
  | [], _, _, _ => by
    rw [fencedToks]
    rfl
  | c :: cs, n, bs, hbs => by
    rw [fencedToks]
    by_cases hs : startsB ticks3 (c :: cs) = true
    · cases hf : findTicksIdx (cs.drop 2) with
      | some k =>
        rw [if_pos hs]
        show flattenBlocks bs
            (Tok.phT n :: fencedToks (n + 1) ((cs.drop 2).drop (k + 3))) = c :: cs
        have hstep : (fencedAux n (c :: cs)).2 =
            (ticks3 ++ (cs.drop 2).take k ++ ticks3) ::
              (fencedAux (n + 1) ((cs.drop 2).drop (k + 3))).2 := by
          rw [fencedAux, if_pos hs, hf]
        have hb0 : bs.getD n [] = ticks3 ++ (cs.drop 2).take k ++ ticks3 := by
          have h0 := hbs 0 (by rw [hstep]; simp)
          rw [hstep] at h0
          simpa using h0
        simp only [flattenBlocks]
        rw [hb0]
        rw [flattenBlocks_fencedToks ((cs.drop 2).drop (k + 3)) (n + 1) bs (fun j hjlt => by
          have hj := hbs (j + 1) (by rw [hstep]; simp only [List.length_cons]; omega)
          rw [hstep] at hj
          have hadd : n + (j + 1) = n + 1 + j := by omega
          rw [hadd] at hj
          simpa using hj)]
        have h3 : ticks3.length = 3 := by decide
        have hsp : (c :: cs : Text) = ticks3 ++ cs.drop 2 := by
          have h := startsB_split hs
          rw [h3] at h
          exact h
        rw [hsp]
        conv_rhs => rw [findTicksIdx_split hf]
        simp [List.append_assoc]
      | none =>
        rw [if_pos hs]
        show flattenBlocks bs (Tok.ch c :: fencedToks n cs) = c :: cs
        have hstep : (fencedAux n (c :: cs)).2 = (fencedAux n cs).2 := by
          rw [fencedAux, if_pos hs, hf]
        simp only [flattenBlocks]
        rw [flattenBlocks_fencedToks cs n bs (fun j hjlt => by
          have hj := hbs j (by rw [hstep]; exact hjlt)
          rw [hstep] at hj
          exact hj)]
    · rw [if_neg hs]
      have hstep : (fencedAux n (c :: cs)).2 = (fencedAux n cs).2 := by
        rw [fencedAux, if_neg hs]
      simp only [flattenBlocks]
      rw [flattenBlocks_fencedToks cs n bs (fun j hjlt => by
        have hj := hbs j (by rw [hstep]; exact hjlt)
        rw [hstep] at hj
        exact hj)]
termination_by t _ _ _ => t.length
decreasing_by
  all_goals simp [List.length_drop]
  all_goals omega

end FixIssues

namespace FixIssues

open PyStr

theorem dropWhile_head_false {α : Type} (p : α → Bool) :
    ∀ (l : List α) {c : α} {cs : List α}, l.dropWhile p = c :: cs → p c = false := by
  intro l
  induction l with
  | nil =>
    intro c cs h
    simp [List.dropWhile] at h
  | cons a as ih =>
    intro c cs h
    rw [List.dropWhile_cons] at h
    by_cases hp : p a = true
    · rw [if_pos hp] at h
      exact ih h
    · rw [if_neg hp] at h
      injection h with h1 _
      subst h1
      simpa using hp

theorem takeWhile_append_of_all {α : Type} {p : α → Bool} :
    ∀ (x : List α), (∀ c ∈ x, p c = true) → ∀ y : List α,
      (x ++ y).takeWhile p = x ++ y.takeWhile p := by
  intro x
  induction x with
  | nil =>
    intro _ y
    rfl
  | cons a as ih =>
    intro h y
    have ha : p a = true := h a (List.mem_cons_self _ _)
    show ((a :: (as ++ y)).takeWhile p : List α) = a :: (as ++ y.takeWhile p)
    rw [List.takeWhile_cons, if_pos ha, ih (fun c hc => h c (List.mem_cons_of_mem _ hc)) y]

theorem drop_append_cons {α : Type} (x y : List α) (a : α) :
    (x ++ a :: y).drop (x.length + 1) = y := by
  have h1 : x ++ a :: y = (x ++ [a]) ++ y := by simp
  have h2 : (x ++ [a]).length = x.length + 1 := by simp
  rw [h1, ← h2, List.drop_left]

theorem flat_takeWhile :
    ∀ ts : List Tok, (flattenPh ts).takeWhile (fun d => d ≠ '\x60') =
      flattenPh (ts.takeWhile (fun u => u ≠ Tok.ch '\x60')) := by
  intro ts
  induction ts with
  | nil => rfl
  | cons t ts ih =>
    cases t with
    | ch c =>
      by_cases hc : c = '\x60'
      · subst hc
        show (('\x60' :: flattenPh ts).takeWhile (fun d => d ≠ '\x60') : Text) = _
        rw [List.takeWhile_cons, List.takeWhile_cons]
        rw [if_neg (by simp), if_neg (by simp)]
        rfl
      · show ((c :: flattenPh ts).takeWhile (fun d => d ≠ '\x60') : Text) = _
        rw [List.takeWhile_cons, List.takeWhile_cons]
        rw [if_pos (by simpa using hc), if_pos (by simpa using hc)]
        show c :: (flattenPh ts).takeWhile (fun d => d ≠ '\x60') =
          flattenPh (Tok.ch c :: ts.takeWhile (fun u => u ≠ Tok.ch '\x60'))
        rw [ih]
        rfl
    | phT i =>
      show ((ph i ++ flattenPh ts).takeWhile (fun d => d ≠ '\x60') : Text) = _
      rw [takeWhile_append_of_all (ph i)
        (fun c hc => by simpa using ph_no_tick hc) (flattenPh ts)]
      rw [List.takeWhile_cons, if_pos (by simp)]
      show ph i ++ (flattenPh ts).takeWhile (fun d => d ≠ '\x60') =
        flattenPh (Tok.phT i :: ts.takeWhile (fun u => u ≠ Tok.ch '\x60'))
      rw [ih]
      rfl

theorem inlineAux_no_tick_left :
    ∀ (u : Text), (∀ c ∈ u, c ≠ '\x60') → ∀ (v : Text) (n : Nat),
      inlineAux n (u ++ v) = (u ++ (inlineAux n v).1, (inlineAux n v).2) := by
  intro u
  induction u with
  | nil =>
    intro _ v n
    simp
  | cons a as ih =>
    intro h v n
    have ha : a ≠ '\x60' := h a (List.mem_cons_self _ _)
    show inlineAux n (a :: (as ++ v)) = _
    rw [inlineAux, if_neg ha, ih (fun c hc => h c (List.mem_cons_of_mem _ hc)) v n]
    rfl

end FixIssues

namespace FixIssues

open PyStr

theorem inline_sim_aux :
    ∀ (N : Nat) (ts : List Tok), ts.length ≤ N → ∀ n : Nat,
      inlineAux n (flattenPh ts) = (flattenPh (inlineToks n ts), inlineBlocksT n ts) := by
  intro N
  induction N with
  | zero =>
    intro ts hN n
    have hnil : ts = [] := List.eq_nil_of_length_eq_zero (by omega)
    subst hnil
    show inlineAux n ([] : Text) = _
    rw [inlineAux, inlineToks, inlineBlocksT]
    rfl
  | succ N ih =>
    intro ts hN n
    cases ts with
    | nil =>
      show inlineAux n ([] : Text) = _
      rw [inlineAux, inlineToks, inlineBlocksT]
      rfl
    | cons t ts0 =>
      have hl : ts0.length ≤ N := by
        simp only [List.length_cons] at hN
        omega
      cases t with
      | phT i =>
        show inlineAux n (ph i ++ flattenPh ts0) = _
        rw [inlineAux_no_tick_left (ph i) (fun c hc => ph_no_tick hc) (flattenPh ts0) n]
        rw [inlineToks, inlineBlocksT, if_neg (by simp), if_neg (by simp)]
        rw [ih ts0 hl n]
        rfl
      | ch c =>
        by_cases hc : c = '\x60'
        case neg =>
          show inlineAux n (c :: flattenPh ts0) = _
          rw [inlineAux, if_neg hc, inlineToks, inlineBlocksT,
            if_neg (by simp [hc]), if_neg (by simp [hc])]
          rw [ih ts0 hl n]
          rfl
        case pos =>
          subst hc
          show inlineAux n ('\x60' :: flattenPh ts0) = _
          rw [inlineAux, if_pos rfl, inlineToks, inlineBlocksT, if_pos rfl, if_pos rfl]
          rw [flat_takeWhile ts0]
          rcases hrt : ts0.takeWhile (fun u => u ≠ Tok.ch '\x60') with _ | ⟨t0, rts⟩
          · have hcT : (flattenPh ([] : List Tok)).isEmpty = true := by decide
            have htT : (([] : List Tok)).isEmpty = true := rfl
            rw [if_pos hcT, if_pos htT, if_pos htT]
            rw [ih ts0 hl n]
            rfl
          · have hne : (flattenPh (t0 :: rts)).isEmpty = false := by
              cases hfe : flattenPh (t0 :: rts) with
              | nil => exact absurd (flattenPh_eq_nil hfe) (by simp)
              | cons x xs => rfl
            have hcF : ¬((flattenPh (t0 :: rts)).isEmpty = true) := by simp [hne]
            have htF : ¬(((t0 :: rts) : List Tok).isEmpty = true) := by simp
            rw [if_neg hcF, if_neg htF, if_neg htF]
            have hsplit : ts0 = (t0 :: rts) ++ ts0.dropWhile (fun u => u ≠ Tok.ch '\x60') := by
              have hx := List.takeWhile_append_dropWhile (fun u => u ≠ Tok.ch '\x60') ts0
              rw [hrt] at hx
              exact hx.symm
            rcases hd : ts0.dropWhile (fun u => u ≠ Tok.ch '\x60') with _ | ⟨u0, us⟩
            · rw [hd] at hsplit
              have hts : ts0 = t0 :: rts := by simpa using hsplit
              subst hts
              have hcf : ¬(decide ((flattenPh (t0 :: rts)).length <
                  (flattenPh (t0 :: rts)).length) = true) := by
                simp only [decide_eq_true_eq]
                omega
              have htf : ¬(decide (((t0 :: rts) : List Tok).length <
                  ((t0 :: rts) : List Tok).length) = true) := by
                simp only [decide_eq_true_eq]
                omega
              rw [if_neg hcf, if_neg htf, if_neg htf]
              rw [ih (t0 :: rts) hl n]
              rfl
            · have hu0 : u0 = Tok.ch '\x60' := by
                have hf := dropWhile_head_false (fun u => u ≠ Tok.ch '\x60') ts0 hd
                simpa using hf
              subst hu0
              rw [hd] at hsplit
              subst hsplit
              have hflat : flattenPh ((t0 :: rts) ++ Tok.ch '\x60' :: us) =
                  flattenPh (t0 :: rts) ++ '\x60' :: flattenPh us := by
                rw [flattenPh_append]
                rfl
              have hlus : us.length ≤ N := by
                simp only [List.length_cons, List.length_append] at hl
                omega
              have hct : decide ((flattenPh (t0 :: rts)).length <
                  (flattenPh ((t0 :: rts) ++ Tok.ch '\x60' :: us)).length) = true := by
                rw [hflat]
                simp only [decide_eq_true_eq, List.length_append, List.length_cons]
                omega
              have htt : decide ((((t0 :: rts) : List Tok)).length <
                  (((t0 :: rts) ++ Tok.ch '\x60' :: us : List Tok)).length) = true := by
                simp only [decide_eq_true_eq, List.length_append, List.length_cons]
                omega
              rw [if_pos hct, if_pos htt, if_pos htt]
              have hdrop1 : (flattenPh ((t0 :: rts) ++ Tok.ch '\x60' :: us)).drop
                  ((flattenPh (t0 :: rts)).length + 1) = flattenPh us := by
                rw [hflat]
                exact drop_append_cons _ _ _
              rw [hdrop1, drop_append_cons (t0 :: rts) us (Tok.ch '\x60')]
              rw [ih us hlus (n + 1)]
              rfl

end FixIssues

namespace FixIssues

open PyStr

theorem inline_sim (ts : List Tok) (n : Nat) :
    inlineAux n (flattenPh ts) = (flattenPh (inlineToks n ts), inlineBlocksT n ts) :=
  inline_sim_aux ts.length ts (Nat.le_refl _) n

theorem count_phT_of_all_ch {run : List Tok} (h : run.all isChTok = true) (j : Nat) :
    run.count (Tok.phT j) = 0 := by
  induction run with
  | nil => rfl
  | cons t ts ih =>
    rw [List.all_cons] at h
    rcases Bool.and_eq_true_iff.mp h with ⟨h1, h2⟩
    cases t with
    | ch c =>
      rw [List.count_cons_of_ne (by simp)]
      exact ih h2
    | phT i => simp [isChTok] at h1

theorem flattenBlocks_of_all_ch {bs : List Text} {run : List Tok}
    (h : run.all isChTok = true) : flattenBlocks bs run = flattenPh run := by
  induction run with
  | nil => rfl
  | cons t ts ih =>
    rw [List.all_cons] at h
    rcases Bool.and_eq_true_iff.mp h with ⟨h1, h2⟩
    cases t with
    | ch c =>
      show c :: flattenBlocks bs ts = c :: flattenPh ts
      rw [ih h2]
    | phT i => simp [isChTok] at h1

theorem flattenBlocks_append (bs : List Text) (x y : List Tok) :
    flattenBlocks bs (x ++ y) = flattenBlocks bs x ++ flattenBlocks bs y := by
  induction x with
  | nil => rfl
  | cons t ts ih =>
    cases t with
    | ch c => simp [flattenBlocks, ih]
    | phT i => simp [flattenBlocks, ih]

end FixIssues

namespace FixIssues

open PyStr

theorem inlineToks_count_aux :
    ∀ (N : Nat) (ts : List Tok), ts.length ≤ N → noPhRun ts = true → ∀ (n k : Nat),
      (inlineToks n ts).count (Tok.phT k) =
        ts.count (Tok.phT k) +
          (if n ≤ k ∧ k < n + (inlineBlocksT n ts).length then 1 else 0) := by
  intro N
  induction N with
  | zero =>
    intro ts hN _ n k
    have hnil : ts = [] := List.eq_nil_of_length_eq_zero (by omega)
    subst hnil
    rw [inlineToks, inlineBlocksT]
    simp only [List.count_nil, List.length_nil, Nat.add_zero]
    rw [if_neg (by rintro ⟨h1, h2⟩; omega)]
  | succ N ih =>
    intro ts hN hnp n k
    cases ts with
    | nil =>
      rw [inlineToks, inlineBlocksT]
      simp only [List.count_nil, List.length_nil, Nat.add_zero]
      rw [if_neg (by rintro ⟨h1, h2⟩; omega)]
    | cons t ts0 =>
      have hl : ts0.length ≤ N := by
        simp only [List.length_cons] at hN
        omega
      rw [inlineToks, inlineBlocksT]
      by_cases hbt : t = Tok.ch '\x60'
      case neg =>
        rw [if_neg hbt, if_neg hbt]
        have hnp0 : noPhRun ts0 = true := by
          rw [noPhRun, if_neg hbt] at hnp
          exact hnp
        by_cases hpk : t = Tok.phT k
        · subst hpk
          rw [List.count_cons_self, List.count_cons_self, ih ts0 hl hnp0 n k]
          omega
        · rw [List.count_cons_of_ne (fun hh => hpk hh.symm),
            List.count_cons_of_ne (fun hh => hpk hh.symm)]
          exact ih ts0 hl hnp0 n k
      case pos =>
        subst hbt
        rw [if_pos rfl, if_pos rfl]
        rw [noPhRun, if_pos rfl] at hnp
        rcases hrt : ts0.takeWhile (fun u => u ≠ Tok.ch '\x60') with _ | ⟨t0, rts⟩
        · have hT : (([] : List Tok)).isEmpty = true := rfl
          rw [if_pos hT, if_pos hT]
          rw [hrt, if_pos hT] at hnp
          rw [List.count_cons_of_ne (by simp), List.count_cons_of_ne (by simp)]
          exact ih ts0 hl hnp n k
        · have htF : ¬(((t0 :: rts) : List Tok)).isEmpty = true := by simp
          rw [if_neg htF, if_neg htF]
          rw [hrt, if_neg htF] at hnp
          have hsplit : ts0 = (t0 :: rts) ++ ts0.dropWhile (fun u => u ≠ Tok.ch '\x60') := by
            have hx := List.takeWhile_append_dropWhile (fun u => u ≠ Tok.ch '\x60') ts0
            rw [hrt] at hx
            exact hx.symm
          by_cases hlen : decide (((t0 :: rts) : List Tok).length < ts0.length) = true
          · rw [if_pos hlen, if_pos hlen]
            rw [if_pos hlen] at hnp
            rcases hd : ts0.dropWhile (fun u => u ≠ Tok.ch '\x60') with _ | ⟨u0, us⟩
            · exfalso
              rw [hd] at hsplit
              have hts : ts0 = t0 :: rts := by simpa using hsplit
              rw [hts] at hlen
              simp at hlen
            · have hu0 : u0 = Tok.ch '\x60' := by
                have hf := dropWhile_head_false (fun u => u ≠ Tok.ch '\x60') ts0 hd
                simpa using hf
              subst hu0
              rw [hd] at hsplit
              subst hsplit
              rw [drop_append_cons (t0 :: rts) us (Tok.ch '\x60')]
              rw [drop_append_cons (t0 :: rts) us (Tok.ch '\x60')] at hnp
              rcases Bool.and_eq_true_iff.mp hnp with ⟨hall, hnp2⟩
              have hlus : us.length ≤ N := by
                simp only [List.length_append, List.length_cons] at hl
                omega
              have hIH := ih us hlus hnp2 (n + 1) k
              have hcr : ((t0 :: rts) : List Tok).count (Tok.phT k) = 0 :=
                count_phT_of_all_ch hall k
              have hout : List.count (Tok.phT k)
                  (Tok.ch '\x60' :: ((t0 :: rts) ++ Tok.ch '\x60' :: us)) =
                  List.count (Tok.phT k) ((t0 :: rts) ++ Tok.ch '\x60' :: us) :=
                List.count_cons_of_ne (by simp) _
              have hin : List.count (Tok.phT k) (Tok.ch '\x60' :: us) =
                  List.count (Tok.phT k) us :=
                List.count_cons_of_ne (by simp) _
              rw [hout, List.count_append, hin, hcr]
              by_cases hk : n = k
              · subst hk
                rw [List.count_cons_self, hIH,
                  if_neg (by rintro ⟨h1, _⟩; omega),
                  if_pos (by
                    refine ⟨Nat.le_refl n, ?_⟩
                    simp only [List.length_cons]
                    omega)]
                omega
              · rw [List.count_cons_of_ne (by simpa using Ne.symm hk), hIH]
                by_cases hA : n + 1 ≤ k ∧ k < n + 1 + (inlineBlocksT (n + 1) us).length
                · rw [if_pos hA,
                    if_pos (by
                      refine ⟨by omega, ?_⟩
                      simp only [List.length_cons]
                      omega)]
                  omega
                · rw [if_neg hA,
                    if_neg (by
                      rintro ⟨h1, h2⟩
                      simp only [List.length_cons] at h2
                      exact hA ⟨by omega, by omega⟩)]
                  omega
          · rw [if_neg hlen, if_neg hlen]
            rw [if_neg hlen] at hnp
            rw [List.count_cons_of_ne (by simp), List.count_cons_of_ne (by simp)]
            exact ih ts0 hl hnp n k

theorem inlineToks_count {ts : List Tok} (hnp : noPhRun ts = true) (n k : Nat) :
    (inlineToks n ts).count (Tok.phT k) =
      ts.count (Tok.phT k) +
        (if n ≤ k ∧ k < n + (inlineBlocksT n ts).length then 1 else 0) :=
  inlineToks_count_aux ts.length ts (Nat.le_refl _) hnp n k

end FixIssues

namespace FixIssues

open PyStr

theorem flattenBlocks_inline_aux :
    ∀ (N : Nat) (ts : List Tok), ts.length ≤ N → noPhRun ts = true →
      ∀ (n : Nat) (bs : List Text),
        (∀ j, j < (inlineBlocksT n ts).length →
          bs.getD (n + j) [] = (inlineBlocksT n ts).getD j []) →
        flattenBlocks bs (inlineToks n ts) = flattenBlocks bs ts := by
  intro N
  induction N with
  | zero =>
    intro ts hN _ n bs _
    have hnil : ts = [] := List.eq_nil_of_length_eq_zero (by omega)
    subst hnil
    rw [inlineToks]
  | succ N ih =>
    intro ts hN hnp n bs hbs
    cases ts with
    | nil => rw [inlineToks]
    | cons t ts0 =>
      have hl : ts0.length ≤ N := by
        simp only [List.length_cons] at hN
        omega
      rw [inlineToks]
      by_cases hbt : t = Tok.ch '\x60'
      case neg =>
        rw [if_neg hbt]
        have hnp0 : noPhRun ts0 = true := by
          rw [noPhRun, if_neg hbt] at hnp
          exact hnp
        have hblk : inlineBlocksT n (t :: ts0) = inlineBlocksT n ts0 := by
          rw [inlineBlocksT, if_neg hbt]
        rw [hblk] at hbs
        cases t with
        | ch c =>
          show c :: flattenBlocks bs (inlineToks n ts0) = c :: flattenBlocks bs ts0
          rw [ih ts0 hl hnp0 n bs hbs]
        | phT i =>
          show bs.getD i [] ++ flattenBlocks bs (inlineToks n ts0) =
            bs.getD i [] ++ flattenBlocks bs ts0
          rw [ih ts0 hl hnp0 n bs hbs]
      case pos =>
        subst hbt
        rw [if_pos rfl]
        rw [noPhRun, if_pos rfl] at hnp
        rcases hrt : ts0.takeWhile (fun u => u ≠ Tok.ch '\x60') with _ | ⟨t0, rts⟩
        · have hT : (([] : List Tok)).isEmpty = true := rfl
          rw [if_pos hT]
          rw [hrt, if_pos hT] at hnp
          have hblk : inlineBlocksT n (Tok.ch '\x60' :: ts0) = inlineBlocksT n ts0 := by
            rw [inlineBlocksT, if_pos rfl, hrt, if_pos hT]
          rw [hblk] at hbs
          show '\x60' :: flattenBlocks bs (inlineToks n ts0) =
            '\x60' :: flattenBlocks bs ts0
          rw [ih ts0 hl hnp n bs hbs]
        · have htF : ¬(((t0 :: rts) : List Tok)).isEmpty = true := by simp
          rw [if_neg htF]
          rw [hrt, if_neg htF] at hnp
          have hsplit : ts0 = (t0 :: rts) ++ ts0.dropWhile (fun u => u ≠ Tok.ch '\x60') := by
            have hx := List.takeWhile_append_dropWhile (fun u => u ≠ Tok.ch '\x60') ts0
            rw [hrt] at hx
            exact hx.symm
          by_cases hlen : decide (((t0 :: rts) : List Tok).length < ts0.length) = true
          · rw [if_pos hlen]
            rw [if_pos hlen] at hnp
            rcases hd : ts0.dropWhile (fun u => u ≠ Tok.ch '\x60') with _ | ⟨u0, us⟩
            · exfalso
              rw [hd] at hsplit
              have hts : ts0 = t0 :: rts := by simpa using hsplit
              rw [hts] at hlen
              simp at hlen
            · have hu0 : u0 = Tok.ch '\x60' := by
                have hf := dropWhile_head_false (fun u => u ≠ Tok.ch '\x60') ts0 hd
                simpa using hf
              subst hu0
              rw [hd] at hsplit
              subst hsplit
              rw [drop_append_cons (t0 :: rts) us (Tok.ch '\x60')]
              rw [drop_append_cons (t0 :: rts) us (Tok.ch '\x60')] at hnp
              rcases Bool.and_eq_true_iff.mp hnp with ⟨hall, hnp2⟩
              have hlus : us.length ≤ N := by
                simp only [List.length_append, List.length_cons] at hl
                omega
              have hblk : inlineBlocksT n (Tok.ch '\x60' :: ((t0 :: rts) ++ Tok.ch '\x60' :: us)) =
                  ('\x60' :: flattenPh (t0 :: rts) ++ ['\x60']) :: inlineBlocksT (n + 1) us := by
                rw [inlineBlocksT, if_pos rfl, hrt, if_neg htF, if_pos hlen,
                  drop_append_cons (t0 :: rts) us (Tok.ch '\x60')]
              rw [hblk] at hbs
              have hb0 : bs.getD n [] = '\x60' :: flattenPh (t0 :: rts) ++ ['\x60'] := by
                have h0 := hbs 0 (by simp)
                simpa using h0
              have hbs1 : ∀ j, j < (inlineBlocksT (n + 1) us).length →
                  bs.getD (n + 1 + j) [] = (inlineBlocksT (n + 1) us).getD j [] := by
                intro j hj
                have hj1 := hbs (j + 1) (by simp only [List.length_cons]; omega)
                have hadd : n + (j + 1) = n + 1 + j := by omega
                rw [hadd] at hj1
                simpa using hj1
              show bs.getD n [] ++ flattenBlocks bs (inlineToks (n + 1) us) =
                '\x60' :: flattenBlocks bs ((t0 :: rts) ++ Tok.ch '\x60' :: us)
              rw [hb0, ih us hlus hnp2 (n + 1) bs hbs1, flattenBlocks_append,
                flattenBlocks_of_all_ch hall]
              show ('\x60' :: flattenPh (t0 :: rts) ++ ['\x60']) ++ flattenBlocks bs us =
                '\x60' :: (flattenPh (t0 :: rts) ++ '\x60' :: flattenBlocks bs us)
              simp [List.append_assoc]
          · rw [if_neg hlen]
            rw [if_neg hlen] at hnp
            have hblk : inlineBlocksT n (Tok.ch '\x60' :: ts0) = inlineBlocksT n ts0 := by
              rw [inlineBlocksT, if_pos rfl, hrt, if_neg htF, if_neg hlen]
            rw [hblk] at hbs
            show '\x60' :: flattenBlocks bs (inlineToks n ts0) =
              '\x60' :: flattenBlocks bs ts0
            rw [ih ts0 hl hnp n bs hbs]

end FixIssues

namespace FixIssues

open PyStr

theorem getD_append_shift {α : Type} : ∀ (x y : List α) (j : Nat) (d : α),
    (x ++ y).getD (x.length + j) d = y.getD j d := by
  intro x
  induction x with
  | nil =>
    intro y j d
    show y.getD (0 + j) d = y.getD j d
    rw [Nat.zero_add]
  | cons a as ih =>
    intro y j d
    have h : (a :: as).length + j = (as.length + j) + 1 := by
      simp only [List.length_cons]
      omega
    rw [h]
    show (as ++ y).getD (as.length + j) d = y.getD j d
    exact ih y j d

theorem getD_append_left {α : Type} : ∀ (x y : List α) (j : Nat), j < x.length →
    ∀ d : α, (x ++ y).getD j d = x.getD j d := by
  intro x
  induction x with
  | nil =>
    intro y j hj d
    simp at hj
  | cons a as ih =>
    intro y j hj d
    cases j with
    | zero => rfl
    | succ jj =>
      show (as ++ y).getD jj d = as.getD jj d
      exact ih y jj (by simp only [List.length_cons] at hj; omega) d

theorem restoreFrom_append : ∀ (l : List Text) (i : Nat) (c b : Text),
    restoreFrom i c (l ++ [b]) = replaceAll (ph (i + l.length)) b (restoreFrom i c l) := by
  intro l
  induction l with
  | nil =>
    intro i c b
    show restoreFrom i c [b] = replaceAll (ph (i + 0)) b (restoreFrom i c [])
    rw [restoreFrom, restoreFrom, restoreFrom, Nat.add_zero]
  | cons b0 l ih =>
    intro i c b
    show restoreFrom i c (b0 :: (l ++ [b])) =
      replaceAll (ph (i + (l.length + 1))) b (restoreFrom i c (b0 :: l))
    rw [restoreFrom, ih (i + 1) (replaceAll (ph i) b0 c) b]
    have hadd : i + 1 + l.length = i + (l.length + 1) := by omega
    rw [hadd]
    rw [restoreFrom]

theorem restoreState_zero (c : Text) (bs : List Text) : restoreState c bs 0 = c := by
  unfold restoreState
  rw [List.take_zero, restoreFrom]

theorem restoreState_succ {c : Text} {bs : List Text} {k : Nat} (hk : k < bs.length) :
    restoreState c bs (k + 1) = replaceAll (ph k) (bs.getD k []) (restoreState c bs k) := by
  unfold restoreState
  rw [List.take_succ, List.getElem?_eq_getElem hk]
  show restoreFrom 0 c (bs.take k ++ [bs[k]]) = _
  rw [restoreFrom_append]
  have hlen : (bs.take k).length = k := by
    rw [List.length_take]
    omega
  rw [hlen, Nat.zero_add]
  have hg : bs.getD k [] = bs[k] := by
    rw [List.getD_eq_getElem?_getD, List.getElem?_eq_getElem hk]
    rfl
  rw [hg]

end FixIssues

namespace FixIssues

open PyStr

theorem protect_fst (t : Text) : (protect t).1 = flattenPh (protectToks t) := by
  show (inlineAux (fencedAux 0 t).2.length (fencedAux 0 t).1).1 = _
  rw [fenced_sim t 0, inline_sim (fencedToks 0 t) (fencedAux 0 t).2.length]
  rfl

theorem protect_snd (t : Text) :
    (protect t).2 = (fencedAux 0 t).2 ++
      inlineBlocksT (fencedAux 0 t).2.length (fencedToks 0 t) := by
  show (fencedAux 0 t).2 ++ (inlineAux (fencedAux 0 t).2.length (fencedAux 0 t).1).2 = _
  rw [fenced_sim t 0, inline_sim (fencedToks 0 t) (fencedAux 0 t).2.length]

theorem protectToks_count (t : Text) (hns : noPhRun (fencedToks 0 t) = true) (k : Nat) :
    (protectToks t).count (Tok.phT k) = if k < (protect t).2.length then 1 else 0 := by
  unfold protectToks
  rw [inlineToks_count hns (fencedAux 0 t).2.length k, fencedToks_count t 0 k]
  rw [protect_snd, List.length_append]
  by_cases h1 : k < (fencedAux 0 t).2.length
  · rw [if_pos ⟨Nat.zero_le k, by omega⟩, if_neg (by rintro ⟨ha, _⟩; omega),
      if_pos (by omega)]
  · by_cases h2 : k < (fencedAux 0 t).2.length +
        (inlineBlocksT (fencedAux 0 t).2.length (fencedToks 0 t)).length
    · rw [if_neg (by rintro ⟨_, hb⟩; omega), if_pos ⟨by omega, by omega⟩, if_pos h2]
    · rw [if_neg (by rintro ⟨_, hb⟩; omega), if_neg (by rintro ⟨_, hb⟩; omega),
        if_neg h2]

theorem restore_inv (bs : List Text) (c : Text) (toks : List Tok)
    (hc : c = flattenPh toks)
    (hcnt : ∀ k, k < bs.length → toks.count (Tok.phT k) = 1)
    (hocc : ∀ k, k < bs.length → countOcc (ph k) (restoreState c bs k) = 1) :
    ∀ k, k ≤ bs.length → restoreState c bs k = flattenPh (expandToks bs k toks) := by
  intro k
  induction k with
  | zero =>
    intro _
    rw [expandToks_zero, restoreState_zero]
    exact hc
  | succ k ihk =>
    intro hk1
    have hk : k < bs.length := by omega
    have hI := ihk (by omega)
    have hcount : (expandToks bs k toks).count (Tok.phT k) = 1 := by
      rw [expandToks_count_ge (Nat.le_refl k)]
      exact hcnt k hk
    rcases count_one_split hcount with ⟨A, B, hAB, hA, hB⟩
    have hflatsplit : flattenPh (expandToks bs k toks) =
        flattenPh A ++ ph k ++ flattenPh B := by
      rw [hAB, flattenPh_append]
      show flattenPh A ++ (ph k ++ flattenPh B) = _
      rw [← List.append_assoc]
    have hocck := hocc k hk
    rw [hI, hflatsplit] at hocck
    rw [restoreState_succ hk, hI, hflatsplit,
      replaceAll_splice (ph_ne_nil k) (flattenPh A) (flattenPh B) hocck]
    rw [← expandToks_succ bs k toks, hAB, expandToks_append]
    have hexpA : expandToks bs (k + 1) A = A :=
      expandToks_of_no_phT_lt (fun j hj hmem => by
        rcases Nat.lt_succ_iff_lt_or_eq.mp hj with h' | h'
        · exact not_phT_mem_expandToks h' toks
            (by rw [hAB]; exact List.mem_append_left _ hmem)
        · subst h'
          exact hA hmem)
    have hexpB : expandToks bs (k + 1) B = B :=
      expandToks_of_no_phT_lt (fun j hj hmem => by
        rcases Nat.lt_succ_iff_lt_or_eq.mp hj with h' | h'
        · exact not_phT_mem_expandToks h' toks
            (by rw [hAB]; exact List.mem_append_right _ (List.mem_cons_of_mem _ hmem))
        · subst h'
          exact hB hmem)
    have hexpk : expandToks bs (k + 1) (Tok.phT k :: B) =
        (bs.getD k []).map Tok.ch ++ expandToks bs (k + 1) B := by
      rw [expandToks, if_pos (Nat.lt_succ_self k)]
    rw [hexpk, hexpA, hexpB, flattenPh_append, flattenPh_append, flattenPh_map_ch]
    rw [List.append_assoc]

theorem saveRestore_eq (t : Text) (hns : noPhRun (fencedToks 0 t) = true)
    (hocc : ∀ k, k < (protect t).2.length →
      countOcc (ph k) (restoreState (protect t).1 (protect t).2 k) = 1) :
    saveRestore t = t := by
  have hcnt : ∀ k, k < (protect t).2.length → (protectToks t).count (Tok.phT k) = 1 := by
    intro k hk
    rw [protectToks_count t hns k, if_pos hk]
  have hmem : ∀ j, Tok.phT j ∈ protectToks t → j < (protect t).2.length := by
    intro j hj
    by_contra hge
    have hz := protectToks_count t hns j
    rw [if_neg hge] at hz
    exact List.not_mem_of_count_eq_zero hz hj
  have hfin := restore_inv (protect t).2 (protect t).1 (protectToks t)
    (protect_fst t) hcnt hocc (protect t).2.length (Nat.le_refl _)
  have hsr : saveRestore t = restoreState (protect t).1 (protect t).2
      (protect t).2.length := by
    unfold saveRestore restoreState
    rw [List.take_length]
  rw [hsr, hfin, flattenPh_expand_full hmem]
  have hbsi : ∀ j, j < (inlineBlocksT (fencedAux 0 t).2.length (fencedToks 0 t)).length →
      (protect t).2.getD ((fencedAux 0 t).2.length + j) [] =
      (inlineBlocksT (fencedAux 0 t).2.length (fencedToks 0 t)).getD j [] := by
    intro j _
    rw [protect_snd, getD_append_shift]
  have hbsf : ∀ j, j < (fencedAux 0 t).2.length →
      (protect t).2.getD (0 + j) [] = (fencedAux 0 t).2.getD j [] := by
    intro j hj
    rw [Nat.zero_add, protect_snd, getD_append_left _ _ j hj]
  show flattenBlocks (protect t).2 (protectToks t) = t
  unfold protectToks
  rw [flattenBlocks_inline_aux (fencedToks 0 t).length (fencedToks 0 t)
    (Nat.le_refl _) hns (fencedAux 0 t).2.length (protect t).2 hbsi]
  rw [flattenBlocks_fencedToks t 0 (protect t).2 hbsf]

end FixIssues

namespace FixIssues

open PyStr

/-- Counterexample to claim C10: the input `\x60a\x60\x60\x60b\x60\x60\x60c\x60`
contains no `__CODE_BLOCK_` substring at all, yet saving and restoring does not
reproduce it: the fenced pass captures the inner `\x60\x60\x60b\x60\x60\x60`,
the inline pass then captures the span containing that placeholder, and the
ascending restore order substitutes block 0 before block 1 exists in the
content, leaving a literal `__CODE_BLOCK_0__` in the output. -/
theorem c10_counterexample :
    occB marker (tx "\x60a\x60\x60\x60b\x60\x60\x60c\x60") = false ∧
    saveRestore (tx "\x60a\x60\x60\x60b\x60\x60\x60c\x60") =
      tx "\x60a__CODE_BLOCK_0__c\x60" ∧
    saveRestore (tx "\x60a\x60\x60\x60b\x60\x60\x60c\x60") ≠
      tx "\x60a\x60\x60\x60b\x60\x60\x60c\x60" := by
  have hph0 : ph 0 = tx "__CODE_BLOCK_0__" := by decide
  have hph1 : ph 1 = tx "__CODE_BLOCK_1__" := by decide
  have h2 : saveRestore (tx "\x60a\x60\x60\x60b\x60\x60\x60c\x60") =
      tx "\x60a__CODE_BLOCK_0__c\x60" := by
    simp [saveRestore, protect, fencedAux, inlineAux, findTicksIdx, restoreFrom,
      replaceAll, replaceAllNe, startsB, ticks3, hph0, hph1, tx, List.takeWhile]
  exact ⟨by decide, h2, by rw [h2]; decide⟩

/-- Claim C10 as amended: the protection round trip restores every code
block verbatim in its original position under two preconditions — no
inline-code span swallows a fenced placeholder (no nesting of a fenced
match inside backticks), and each placeholder text occurs exactly once in
the content at the step where it is restored (no pre-existing or
coincidental `__CODE_BLOCK_<n>__` occurrence).  The absence of
`__CODE_BLOCK_<n>__` substrings in the input alone is not sufficient.
Second conjunct: the claimed failure mode for a prose placeholder is real —
on `__CODE_BLOCK_0__ \x60x\x60` the saved inline block is substituted at
the pre-existing occurrence as well. -/
theorem c10_amended (t : Text)
    (hns : noPhRun (fencedToks 0 t) = true)
    (hocc : ∀ k, k < (protect t).2.length →
      countOcc (ph k) (restoreState (protect t).1 (protect t).2 k) = 1) :
    saveRestore t = t ∧
    saveRestore (tx "__CODE_BLOCK_0__ \x60x\x60") = tx "\x60x\x60 \x60x\x60" := by
  refine ⟨saveRestore_eq t hns hocc, ?_⟩
  have hph0 : ph 0 = tx "__CODE_BLOCK_0__" := by decide
  simp [saveRestore, protect, fencedAux, inlineAux, findTicksIdx, restoreFrom,
    replaceAll, replaceAllNe, startsB, ticks3, hph0, tx, List.takeWhile]

/-- Witness for C10 at `x \x60\x60\x60c\x60\x60\x60 y \x60e\x60 z`: one
fenced and one inline block are saved and restored verbatim. -/
theorem c10_witness :
    saveRestore (tx "x \x60\x60\x60c\x60\x60\x60 y \x60e\x60 z") =
      tx "x \x60\x60\x60c\x60\x60\x60 y \x60e\x60 z" ∧
    saveRestore (tx "__CODE_BLOCK_0__ \x60x\x60") = tx "\x60x\x60 \x60x\x60" := by
  have hph0 : ph 0 = tx "__CODE_BLOCK_0__" := by decide
  have hph1 : ph 1 = tx "__CODE_BLOCK_1__" := by decide
  refine c10_amended (tx "x \x60\x60\x60c\x60\x60\x60 y \x60e\x60 z") ?_ ?_
  · simp [noPhRun, fencedToks, findTicksIdx, startsB, ticks3, isChTok, tx,
      List.takeWhile]
  · intro k hk
    have hpro : protect (tx "x \x60\x60\x60c\x60\x60\x60 y \x60e\x60 z") =
        (tx "x __CODE_BLOCK_0__ y __CODE_BLOCK_1__ z",
          [tx "\x60\x60\x60c\x60\x60\x60", tx "\x60e\x60"]) := by
      simp [protect, fencedAux, inlineAux, findTicksIdx, startsB, ticks3,
        hph0, hph1, tx, List.takeWhile]
    rw [hpro] at hk ⊢
    simp only [List.length_cons, List.length_nil] at hk
    interval_cases k
    · rw [restoreState_zero]
      decide
    · have h1 : restoreState (tx "x __CODE_BLOCK_0__ y __CODE_BLOCK_1__ z")
          [tx "\x60\x60\x60c\x60\x60\x60", tx "\x60e\x60"] 1 =
          tx "x \x60\x60\x60c\x60\x60\x60 y __CODE_BLOCK_1__ z" := by
        simp [restoreState, restoreFrom, replaceAll, replaceAllNe, startsB,
          hph0, tx]
      rw [h1]
      decide

end FixIssues
